import Mathlib

/-!
Verification of the SimplexLPSolver repository (source file `simplex.py`).

The program manipulates Python dictionaries keyed by variable indices
(`A`, `b`, `c` of the slack form).  Python dictionaries preserve insertion
order: updating an existing key keeps its position, assigning a fresh key
appends it at the end, and `del` removes the entry.  We embed such
dictionaries as association lists `List (ℤ × α)` — the integer keys are the
variable indices, with the source's special key `-1` carrying the objective
constant `v` inside `c` — and the program's `float` arithmetic as exact
rational arithmetic (`ℚ`).
-/

set_option autoImplicit false

namespace SimplexLP

namespace Dict

variable {α : Type}

/-- Value of `d[k]`, with an explicit default for an absent key (the source
raises `KeyError` there; all theorems below read only present keys, as the
source does under its documented invariants). -/
def get (d₀ : α) : List (ℤ × α) → ℤ → α
  | [], _ => d₀
  | p :: rest, k => if p.1 = k then p.2 else get d₀ rest k

/-- The key list of a dictionary, in insertion order (`d.keys()`). -/
def keys : List (ℤ × α) → List ℤ :=
  fun d => d.map Prod.fst

/-- Python `k in d`. -/
def hasKey (d : List (ℤ × α)) (k : ℤ) : Bool :=
  d.any (fun p => p.1 == k)

/-- In-place replacement of the value at an existing key: position kept. -/
def repl : List (ℤ × α) → ℤ → α → List (ℤ × α)
  | [], _, _ => []
  | p :: rest, k, v => (if p.1 = k then (k, v) else p) :: repl rest k v

/-- Python `d[k] = v`: replace in place when the key is present, append a
fresh entry at the end otherwise. -/
def set (d : List (ℤ × α)) (k : ℤ) (v : α) : List (ℤ × α) :=
  if hasKey d k then repl d k v else d ++ [(k, v)]

/-- Python `del d[k]`. -/
def del : List (ℤ × α) → ℤ → List (ℤ × α)
  | [], _ => []
  | p :: rest, k => if p.1 = k then del rest k else p :: del rest k

/-- A pass `for i in d: if not skip i: d[i] = f i d[i]` updating values in
place (the source's `+=` loops over rows and the objective). -/
def modify (skip : ℤ → Bool) (f : ℤ → α → α) : List (ℤ × α) → List (ℤ × α)
  | [] => []
  | p :: rest => (if skip p.1 then p else (p.1, f p.1 p.2)) :: modify skip f rest

end Dict

/-- A row of the matrix `A`: the dictionary `A[i]` of the source, mapping a
nonbasic index to its coefficient in the slack form. -/
abbrev Row := List (ℤ × ℚ)

/-- The mutable program state `(A, b, c)` of `simplex.py`.  `A.keys()` is the
basic set `B`, `c.keys()` minus the special key `-1` is the nonbasic set `N`,
and `c[-1]` is the objective constant `v` (source line 82: `c[-1] = 0`). -/
structure SlackForm where
  A : List (ℤ × Row)
  b : List (ℤ × ℚ)
  c : List (ℤ × ℚ)
  deriving DecidableEq, Repr

/-- `A[l]` — the row of the leaving variable. -/
def rowOf (S : SlackForm) (l : ℤ) : Row := Dict.get [] S.A l

/-- the pivot element `A[l][e]`. -/
def pivAle (S : SlackForm) (e l : ℤ) : ℚ := Dict.get 0 (rowOf S l) e

/-- source line 150: `b[e] = - b[l] / A[l][e]`. -/
def pivBe (S : SlackForm) (e l : ℤ) : ℚ := - Dict.get 0 S.b l / pivAle S e l

/-- source lines 153-156: `A[e] = {}; for i in A[l]: if i != e:
A[e][i] = -A[l][i] / A[l][e]` — the new row is built by inserting the scaled
entries of row `l` in their iteration order, skipping column `e`. -/
def scaleRow (ale : ℚ) (e : ℤ) : Row → Row
  | [] => []
  | p :: rest =>
    if p.1 = e then scaleRow ale e rest
    else (p.1, - p.2 / ale) :: scaleRow ale e rest

/-- the finished new row for `e`: source line 157 appends
`A[e][l] = 1 / A[l][e]`. -/
def pivRowe (S : SlackForm) (e l : ℤ) : Row :=
  Dict.set (scaleRow (pivAle S e l) e (rowOf S l)) l (1 / pivAle S e l)

/-- `A` after `A[e] = <new row>` (line 153) and `del A[l]` (line 158). -/
def pivA1 (S : SlackForm) (e l : ℤ) : List (ℤ × Row) :=
  Dict.del (Dict.set S.A e (pivRowe S e l)) l

/-- `b` after `b[e] = ...` (line 150) and `del b[l]` (line 151). -/
def pivB1 (S : SlackForm) (e l : ℤ) : List (ℤ × ℚ) :=
  Dict.del (Dict.set S.b e (pivBe S e l)) l

/-- source line 162: `for i in A: if i != e: b[i] += A[i][e] * b[e]`. -/
def pivB2 (S : SlackForm) (e l : ℤ) : List (ℤ × ℚ) :=
  Dict.modify (fun i => i == e)
    (fun i bi => bi + Dict.get 0 (Dict.get [] (pivA1 S e l) i) e * pivBe S e l)
    (pivB1 S e l)

/-- source lines 163-167, the update of one remaining row `i ≠ e`:
`for j in A[i]: if j != e: A[i][j] += A[i][e] * A[e][j]`, then
`A[i][l] = A[i][e] * A[e][l]`, then `del A[i][e]`. -/
def pivotRowI (rowe : Row) (e l : ℤ) (row : Row) : Row :=
  Dict.del
    (Dict.set
      (Dict.modify (fun j => j == e)
        (fun j a => a + Dict.get 0 row e * Dict.get 0 rowe j) row)
      l (Dict.get 0 row e * Dict.get 0 rowe l))
    e

/-- `A` after the whole row-update loop of lines 160-167. -/
def pivA2 (S : SlackForm) (e l : ℤ) : List (ℤ × Row) :=
  Dict.modify (fun i => i == e)
    (fun _ row => pivotRowI (pivRowe S e l) e l row)
    (pivA1 S e l)

/-- source line 169: `c[-1] += c[e] * b[e]`. -/
def pivC1 (S : SlackForm) (e l : ℤ) : List (ℤ × ℚ) :=
  Dict.set S.c (-1) (Dict.get 0 S.c (-1) + Dict.get 0 S.c e * pivBe S e l)

/-- source lines 170-174: `for i in c: if i != e and i != -1:
c[i] += c[e] * A[e][i]`, then `c[l] = c[e] * A[e][l]`, then `del c[e]`. -/
def pivC2 (S : SlackForm) (e l : ℤ) : List (ℤ × ℚ) :=
  Dict.del
    (Dict.set
      (Dict.modify (fun j => j == e || j == -1)
        (fun j cj => cj + Dict.get 0 (pivC1 S e l) e * Dict.get 0 (pivRowe S e l) j)
        (pivC1 S e l))
      l (Dict.get 0 (pivC1 S e l) e * Dict.get 0 (pivRowe S e l) l))
    e

/-- `pivot(A, b, c, e, l)` of source lines 147-177: the entering variable `e`
replaces the leaving variable `l` in the basis and every dictionary is
rewritten accordingly.  (The two `print` calls of the source are pure trace
output and are not modelled.) -/
def pivot (S : SlackForm) (e l : ℤ) : SlackForm :=
  ⟨pivA2 S e l, pivB2 S e l, pivC2 S e l⟩

/-- `can_improve(c)` of source lines 105-109: the first key of `c` (in
insertion order) with a positive coefficient, skipping the constant slot
`-1`; the source's sentinel return `-1` is modelled as `none`. -/
def can_improve : List (ℤ × ℚ) → Option ℤ
  | [] => none
  | p :: rest => if 0 < p.2 ∧ p.1 ≠ -1 then some p.1 else can_improve rest

/-- The leaving-variable scan of source lines 123-130: iterate over the rows
of `A` in order; a row `i` with `A[i][e] < 0` proposes the bound
`-b[i] / A[i][e]`, and a strictly smaller bound replaces the incumbent.
`none` as accumulator models `tightest_bound = inf, l = None`. -/
def selectLeaving (b : List (ℤ × ℚ)) (e : ℤ) :
    List (ℤ × Row) → Option (ℚ × ℤ) → Option (ℚ × ℤ)
  | [], acc => acc
  | p :: rest, none =>
    if Dict.get 0 p.2 e < 0 then
      selectLeaving b e rest (some (- Dict.get 0 b p.1 / Dict.get 0 p.2 e, p.1))
    else selectLeaving b e rest none
  | p :: rest, some q =>
    if Dict.get 0 p.2 e < 0 then
      if - Dict.get 0 b p.1 / Dict.get 0 p.2 e < q.1 then
        selectLeaving b e rest (some (- Dict.get 0 b p.1 / Dict.get 0 p.2 e, p.1))
      else selectLeaving b e rest (some q)
    else selectLeaving b e rest (some q)

/-- The most-negative-constant scan of source lines 188-193:
`tightest_bound = 0; for i in A: if b[i] < tightest_bound: ... l = i`. -/
def selectMostNeg (b : List (ℤ × ℚ)) :
    List (ℤ × Row) → ℚ → Option ℤ → Option ℤ
  | [], _, l => l
  | p :: rest, tb, l =>
    if Dict.get 0 b p.1 < tb then selectMostNeg b rest (Dict.get 0 b p.1) (some p.1)
    else selectMostNeg b rest tb l

/-- source lines 201-205: the first entry of row `a0` with a negative
coefficient (`for i in A[new_var]: if A[new_var][i] < 0: e = i; break`). -/
def scanNeg : Row → Option ℤ
  | [] => none
  | p :: rest => if p.2 < 0 then some p.1 else scanNeg rest

/-- Result of `first_feasible_solution` (source lines 180-218). `crash`
models the uncaught exception Python would raise when the most-negative scan
selects no row (`l = None`); it is unreachable from `simplex`, which calls
phase 1 only when some `b[i] < 0`. -/
inductive P1Result where
  | infeasible
  | crash
  | ok (S : SlackForm)
  deriving DecidableEq, Repr

/-- `first_feasible_solution(A, b, c)` of source lines 180-218: add the
artificial variable `new_var = len(A) + len(c) - 1` to every row and to the
objective, pivot it in at the most negative row, pivot it back out at the
first column of its row with a negative coefficient (report infeasible when
none exists), then delete it from the objective and from every row. -/
def first_feasible_solution (S : SlackForm) : P1Result :=
  let a0 : ℤ := (S.A.length : ℤ) + (S.c.length : ℤ) - 1
  let A1 := S.A.map (fun p => (p.1, Dict.set p.2 a0 1))
  let S1 : SlackForm := ⟨A1, S.b, Dict.set S.c a0 1⟩
  match selectMostNeg S1.b S1.A 0 none with
  | none => .crash
  | some l =>
    let S2 := pivot S1 a0 l
    match scanNeg (Dict.get [] S2.A a0) with
    | none => .infeasible
    | some e =>
      let S3 := pivot S2 e a0
      .ok ⟨S3.A.map (fun p => (p.1, Dict.del p.2 a0)), S3.b, Dict.del S3.c a0⟩

/-- The final solution read-out of source lines 139-143: for each original
decision index, its value `b[i]` when basic and `0` otherwise. -/
def extract (S : SlackForm) (nv : ℤ) : List ℚ :=
  (List.range nv.toNat).map
    (fun i : ℕ =>
      if Dict.hasKey S.b (i : ℤ) then Dict.get 0 S.b (i : ℤ) else 0)

/-- Terminal outcomes of a run.  `inputError` is the caught `ValueError`
(`print('Input error.'); sys.exit(1)`, the spec's `MalformedInputError`);
`uncaughtError` is a Python exception that no handler catches;
`outOfFuel` marks that the fuel bound (not part of the source, which may
loop forever on cycling inputs) was exhausted. -/
inductive RunResult where
  | optimal (xs : List ℚ) (z : ℚ)
  | unbounded
  | infeasible
  | inputError
  | uncaughtError
  | outOfFuel
  deriving DecidableEq, Repr

/-- The phase-2 loop of source lines 121-144, with explicit fuel: pick the
entering variable with `can_improve`, the leaving variable with the ratio
test; report unbounded when no row limits the entering variable; extract the
solution when no coefficient is positive. -/
def phase2 : ℕ → ℤ → SlackForm → RunResult
  | 0, _, _ => .outOfFuel
  | n + 1, nv, S =>
    match can_improve S.c with
    | none => .optimal (extract S nv) (Dict.get 0 S.c (-1))
    | some e =>
      match selectLeaving S.b e S.A none with
      | none => .unbounded
      | some q => phase2 n nv (pivot S e q.2)

/-- One iteration of the phase-2 loop body as a state transformer: `none`
when the loop stops (optimal) or exits (unbounded); `some` of the pivoted
state otherwise. -/
def phase2Step (S : SlackForm) : Option SlackForm :=
  match can_improve S.c with
  | none => none
  | some e =>
    match selectLeaving S.b e S.A none with
    | none => none
    | some q => some (pivot S e q.2)

/-- `n` iterations of the phase-2 loop body. -/
def phase2Iter : ℕ → SlackForm → Option SlackForm
  | 0, S => some S
  | n + 1, S =>
    match phase2Step S with
    | none => none
    | some T => phase2Iter n T

/-- A whitespace-separated token of the input file.  `intTok n` is a token
accepted by both Python `int()` and `float()`; `floatTok q` is accepted by
`float()` only (e.g. `0.5`); `badTok` is accepted by neither. -/
inductive Tok where
  | intTok (n : ℤ)
  | floatTok (q : ℚ)
  | badTok
  deriving DecidableEq, Repr

/-- Python exceptions reachable in `parse_input`: `ValueError` (caught by
the `except ValueError` of line 86) and `IndexError` (not caught). -/
inductive PErr where
  | valueError
  | indexError
  deriving DecidableEq, Repr

/-- Python `int(tok)`. -/
def tokInt : Tok → Except PErr ℤ
  | .intTok n => .ok n
  | _ => .error .valueError

/-- Python `float(tok)`. -/
def tokFloat : Tok → Except PErr ℚ
  | .intTok n => .ok (n : ℚ)
  | .floatTok q => .ok q
  | .badTok => .error .valueError

/-- Turn an optional lookup into Python indexing: `IndexError` when absent. -/
def optIdx {α : Type} (o : Option α) : Except PErr α :=
  match o with
  | some x => .ok x
  | none => .error .indexError

/-- `s[i]` on the list of input lines (raises `IndexError` when absent; the
source never uses a negative line index on well-formed headers, and the
claims below only concern nonnegative header values). -/
def lineAt (s : List (List Tok)) (i : ℕ) : Except PErr (List Tok) :=
  optIdx (s.get? i)

/-- `row[j]` on a tokenized line. -/
def tokAt (row : List Tok) (j : ℕ) : Except PErr Tok :=
  optIdx (row.get? j)

/-- The token of the input that parsing reads as line `i`, position `j`
(`none` when the line or the token is absent). -/
def tokView (s : List (List Tok)) (i j : ℕ) : Option Tok :=
  (s.get? i).bind (fun r => r.get? j)

/-- source lines 60-63: `row = s[0].split(); num_var = int(row[0]);
num_con = int(row[1])`. -/
def parseHeader (s : List (List Tok)) : Except PErr (ℤ × ℤ) := do
  let row0 ← lineAt s 0
  let nv ← tokInt (← tokAt row0 0)
  let nc ← tokInt (← tokAt row0 1)
  pure (nv, nc)

/-- source lines 69-70, one constraint row: `for j in range(num_var):
A[i + num_var][j] = - float(row[j])` (negated in slack form). -/
def parseRow (row : List Tok) (nv : ℕ) : Except PErr Row :=
  (List.range nv).mapM (fun j => do
    let q ← tokFloat (← tokAt row j)
    pure ((j : ℤ), - q))

/-- source lines 65-70, the matrix loop: row `i` is stored under key
`i + num_var`. -/
def parseMatA (s : List (List Tok)) (nv nc : ℤ) : Except PErr (List (ℤ × Row)) :=
  (List.range nc.toNat).mapM (fun i => do
    let line ← lineAt s (i + 1)
    let r ← parseRow line nv.toNat
    pure ((i : ℤ) + nv, r))

/-- source lines 72-75: `row = s[num_con + 1].split(); for i in
range(num_con): b[i + num_var] = float(row[i])`. -/
def parseVecB (s : List (List Tok)) (nv nc : ℤ) : Except PErr (List (ℤ × ℚ)) := do
  let rowb ← lineAt s (nc.toNat + 1)
  (List.range nc.toNat).mapM (fun i => do
    let q ← tokFloat (← tokAt rowb i)
    pure ((i : ℤ) + nv, q))

/-- source lines 77-80: `row = s[num_con + 2].split(); for i in
range(num_var): c[i] = float(row[i])`. -/
def parseVecC (s : List (List Tok)) (nv nc : ℤ) : Except PErr (List (ℤ × ℚ)) := do
  let rowc ← lineAt s (nc.toNat + 2)
  (List.range nv.toNat).mapM (fun i => do
    let q ← tokFloat (← tokAt rowc i)
    pure ((i : ℤ), q))

/-- `parse_input(s)` of source lines 47-88: the input is already split into
lines of whitespace-separated tokens.  The final `c[-1] = 0` (line 82)
installs the objective constant. -/
def parse_input (s : List (List Tok)) : Except PErr (SlackForm × ℤ) := do
  let hd ← parseHeader s
  let A ← parseMatA s hd.1 hd.2
  let b ← parseVecB s hd.1 hd.2
  let c ← parseVecC s hd.1 hd.2
  pure (⟨A, b, Dict.set c (-1) 0⟩, hd.1)

/-- source line 119: `any(b[i] < 0 for i in b)`. -/
def anyNegB (b : List (ℤ × ℚ)) : Bool :=
  b.any (fun p => Dict.get 0 b p.1 < 0)

/-- `simplex(s)` of source lines 112-144 with explicit fuel for the phase-2
loop: parse, run phase 1 when some constant is negative, then run phase 2.
A caught `ValueError` exits with the input-error message; an uncaught
exception aborts the process. -/
def runSimplex (s : List (List Tok)) (fuel : ℕ) : RunResult :=
  match parse_input s with
  | .error .valueError => .inputError
  | .error .indexError => .uncaughtError
  | .ok (S, nv) =>
    if anyNegB S.b then
      match first_feasible_solution S with
      | .infeasible => .infeasible
      | .crash => .uncaughtError
      | .ok S1 => phase2 fuel nv S1
    else phase2 fuel nv S

/-- `A[i][j]` — coefficient of nonbasic `j` in the row of basic `i`. -/
def aCoef (S : SlackForm) (i j : ℤ) : ℚ := Dict.get 0 (Dict.get [] S.A i) j

/-- `b[i]` — constant of the row of basic `i`. -/
def bVal (S : SlackForm) (i : ℤ) : ℚ := Dict.get 0 S.b i

/-- `c[j]` — objective coefficient of nonbasic `j`. -/
def cVal (S : SlackForm) (j : ℤ) : ℚ := Dict.get 0 S.c j

/-- `v = c[-1]` — the objective constant. -/
def vVal (S : SlackForm) : ℚ := Dict.get 0 S.c (-1)

/-- The structural invariant of the slack form, documented in the source's
module comment (lines 9-12): `A.keys()` is `B`, `c.keys()` minus the
constant slot `-1` is `N`, `b.keys()` equals `B`, every row is indexed
exactly by `N`, and `B` and `N` are disjoint. -/
structure Inv (S : SlackForm) : Prop where
  nodupA : (Dict.keys S.A).Nodup
  nodupB : (Dict.keys S.b).Nodup
  nodupC : (Dict.keys S.c).Nodup
  nodupRow : ∀ p ∈ S.A, (Dict.keys p.2).Nodup
  keysAB : ∀ k ∈ Dict.keys S.A, k ∈ Dict.keys S.b
  keysBA : ∀ k ∈ Dict.keys S.b, k ∈ Dict.keys S.A
  rowKeysSub : ∀ p ∈ S.A, ∀ k ∈ Dict.keys p.2, k ∈ Dict.keys S.c ∧ k ≠ -1
  rowKeysSup : ∀ p ∈ S.A, ∀ k ∈ Dict.keys S.c, k ≠ -1 → k ∈ Dict.keys p.2
  disjBN : ∀ k ∈ Dict.keys S.A, k ∉ Dict.keys S.c
  hasV : (-1 : ℤ) ∈ Dict.keys S.c

/-- Feasibility of the dictionary: every basic constant is nonnegative. -/
def Feasible (S : SlackForm) : Prop :=
  ∀ i ∈ Dict.keys S.b, 0 ≤ bVal S i

/-- A small feasible dictionary used as a concrete witness state:
`B = {2, 3}`, `N = {0, 1}`, rows `x2 = 3 + x0 - x1`, `x3 = 4 - 2 x0 + x1`,
objective `z = 0 + x0 - x1`. -/
def Sw : SlackForm :=
  ⟨[(2, [(0, 1), (1, -1)]), (3, [(0, -2), (1, 1)])],
   [(2, 3), (3, 4)],
   [(0, 1), (1, -1), (-1, 0)]⟩

/-- A dictionary that is already optimal (`can_improve` finds nothing):
`B = {2}`, `N = {0, 1}`, `z = 7 - x0 + 0 x1`. -/
def Sopt : SlackForm :=
  ⟨[(2, [(0, -1), (1, 0)])],
   [(2, 5)],
   [(0, -1), (1, 0), (-1, 7)]⟩

/-- Scenario B of the spec (the source's `EXAMPLE2`): `numVar=2, numCon=3`,
`A=[[1,-1],[-1,-1],[-1,4]]`, `b=[8,-3,2]`, `c=[1,3]`. -/
def exB : List (List Tok) :=
  [[.intTok 2, .intTok 3],
   [.intTok 1, .intTok (-1)],
   [.intTok (-1), .intTok (-1)],
   [.intTok (-1), .intTok 4],
   [.intTok 8, .intTok (-3), .intTok 2],
   [.intTok 1, .intTok 3]]

/-- A feasible linear program (`x0 ≥ 1, x1 ≥ 1` is satisfied by `(1, 1)`)
on which phase 1 completes both pivots yet leaves a dictionary with a
negative basic constant: `numVar=2, numCon=2`, `A=[[-1,0],[0,-1]]`,
`b=[-1,-1]`, `c=[0,0]`. -/
def exC2 : List (List Tok) :=
  [[.intTok 2, .intTok 2],
   [.intTok (-1), .intTok 0],
   [.intTok 0, .intTok (-1)],
   [.intTok (-1), .intTok (-1)],
   [.intTok 0, .intTok 0]]

/-- A header declaring 2 variables while the constraint row carries a single
token: Python evaluates `row[1]` and raises an uncaught `IndexError`. -/
def exC3short : List (List Tok) :=
  [[.intTok 2, .intTok 1],
   [.intTok 5],
   [.intTok 7],
   [.intTok 1, .intTok 1]]

/-- The same shape with a non-numeric token where a real is expected:
`float` raises `ValueError`, which `parse_input` catches. -/
def exC3bad : List (List Tok) :=
  [[.intTok 2, .intTok 1],
   [.intTok 5, .badTok],
   [.intTok 7],
   [.intTok 1, .intTok 1]]

/-- A minimal input for `numVar=2, numCon=1`. -/
def exC10a : List (List Tok) :=
  [[.intTok 2, .intTok 1],
   [.intTok 1, .intTok 2],
   [.intTok 3],
   [.intTok 4, .intTok 5]]

/-- The same input with surplus tokens (some non-numeric) on every line and
additional trailing lines. -/
def exC10b : List (List Tok) :=
  [[.intTok 2, .intTok 1, .badTok],
   [.intTok 1, .intTok 2, .badTok, .intTok 9],
   [.intTok 3, .badTok],
   [.intTok 4, .intTok 5, .floatTok (1 / 2)],
   [.badTok],
   []]

end SimplexLP

namespace SimplexLP

namespace Dict

variable {α : Type}

@[simp] theorem get_nil (d₀ : α) (k : ℤ) : get d₀ [] k = d₀ := rfl

@[simp] theorem get_cons (d₀ : α) (p : ℤ × α) (rest : List (ℤ × α)) (k : ℤ) :
    get d₀ (p :: rest) k = if p.1 = k then p.2 else get d₀ rest k := rfl

@[simp] theorem keys_nil : keys ([] : List (ℤ × α)) = [] := rfl

@[simp] theorem keys_cons (p : ℤ × α) (d : List (ℤ × α)) :
    keys (p :: d) = p.1 :: keys d := rfl

@[simp] theorem keys_append (d d' : List (ℤ × α)) :
    keys (d ++ d') = keys d ++ keys d' := by
  simp only [keys, List.map_append]

@[simp] theorem repl_nil (k : ℤ) (v : α) : repl [] k v = [] := rfl

@[simp] theorem repl_cons (p : ℤ × α) (rest : List (ℤ × α)) (k : ℤ) (v : α) :
    repl (p :: rest) k v = (if p.1 = k then (k, v) else p) :: repl rest k v := rfl

@[simp] theorem del_nil (k : ℤ) : del ([] : List (ℤ × α)) k = [] := rfl

@[simp] theorem del_cons (p : ℤ × α) (rest : List (ℤ × α)) (k : ℤ) :
    del (p :: rest) k = if p.1 = k then del rest k else p :: del rest k := rfl

@[simp] theorem modify_nil (skip : ℤ → Bool) (f : ℤ → α → α) :
    modify skip f [] = [] := rfl

@[simp] theorem modify_cons (skip : ℤ → Bool) (f : ℤ → α → α)
    (p : ℤ × α) (rest : List (ℤ × α)) :
    modify skip f (p :: rest) =
      (if skip p.1 then p else (p.1, f p.1 p.2)) :: modify skip f rest := rfl

theorem mem_keys {d : List (ℤ × α)} {k : ℤ} :
    k ∈ keys d ↔ ∃ v, (k, v) ∈ d := by
  constructor
  · intro h
    rcases List.mem_map.mp h with ⟨p, hp, hk⟩
    exact ⟨p.2, by simpa [← hk] using hp⟩
  · rintro ⟨v, hv⟩
    exact List.mem_map.mpr ⟨(k, v), hv, rfl⟩

theorem mem_keys_of_mem {d : List (ℤ × α)} {p : ℤ × α} (h : p ∈ d) :
    p.1 ∈ keys d :=
  List.mem_map.mpr ⟨p, h, rfl⟩

theorem get_of_not_mem (d₀ : α) {d : List (ℤ × α)} {k : ℤ}
    (h : k ∉ keys d) : get d₀ d k = d₀ := by
  induction d with
  | nil => rfl
  | cons p rest ih =>
    rw [keys_cons, List.mem_cons] at h
    push_neg at h
    have hp : ¬ p.1 = k := fun hh => h.1 hh.symm
    simp only [get_cons, if_neg hp]
    exact ih h.2

theorem get_mem (d₀ : α) {d : List (ℤ × α)} {k : ℤ}
    (h : k ∈ keys d) : (k, get d₀ d k) ∈ d := by
  induction d with
  | nil => simp at h
  | cons p rest ih =>
    by_cases hk : p.1 = k
    · subst hk
      simp only [get_cons, if_pos rfl]
      exact List.mem_cons_self _ _
    · rw [keys_cons, List.mem_cons] at h
      have hmem : k ∈ keys rest := h.resolve_left (fun hh => hk hh.symm)
      simp only [get_cons, if_neg hk]
      exact List.mem_cons_of_mem _ (ih hmem)

theorem keys_repl (d : List (ℤ × α)) (k : ℤ) (v : α) :
    keys (repl d k v) = keys d := by
  induction d with
  | nil => rfl
  | cons p rest ih =>
    by_cases hk : p.1 = k <;> simp [hk, ih]

theorem get_repl_self (d₀ : α) {d : List (ℤ × α)} {k : ℤ} (v : α)
    (h : k ∈ keys d) : get d₀ (repl d k v) k = v := by
  induction d with
  | nil => simp at h
  | cons p rest ih =>
    by_cases hk : p.1 = k
    · simp [hk]
    · rw [keys_cons, List.mem_cons] at h
      have hmem : k ∈ keys rest := h.resolve_left (fun hh => hk hh.symm)
      simp [hk, ih hmem]

theorem get_repl_ne (d₀ : α) {d : List (ℤ × α)} {k k' : ℤ} (v : α)
    (h : k' ≠ k) : get d₀ (repl d k v) k' = get d₀ d k' := by
  induction d with
  | nil => rfl
  | cons p rest ih =>
    by_cases hk : p.1 = k
    · have h2 : ¬ k = k' := fun hh => h hh.symm
      simp [hk, h2, ih]
    · simp [hk, ih]

theorem hasKey_iff {d : List (ℤ × α)} {k : ℤ} :
    hasKey d k = true ↔ k ∈ keys d := by
  rw [mem_keys]
  simp only [hasKey, List.any_eq_true, beq_iff_eq]
  constructor
  · rintro ⟨p, hp, hk⟩
    refine ⟨p.2, hk ▸ ?_⟩
    simpa using hp
  · rintro ⟨v, hv⟩
    exact ⟨(k, v), hv, rfl⟩

theorem get_append_single_ne (d₀ : α) (d : List (ℤ × α)) {k k' : ℤ} (v : α)
    (h : k' ≠ k) : get d₀ (d ++ [(k, v)]) k' = get d₀ d k' := by
  induction d with
  | nil =>
    have h2 : ¬ k = k' := fun hh => h hh.symm
    simp [h2]
  | cons p rest ih =>
    by_cases hk : p.1 = k' <;> simp [hk, ih]

theorem get_append_single_self (d₀ : α) {d : List (ℤ × α)} {k : ℤ} (v : α)
    (h : k ∉ keys d) : get d₀ (d ++ [(k, v)]) k = v := by
  induction d with
  | nil => simp
  | cons p rest ih =>
    rw [keys_cons, List.mem_cons] at h
    push_neg at h
    have hp : ¬ p.1 = k := fun hh => h.1 hh.symm
    simp only [List.cons_append, get_cons, if_neg hp]
    exact ih h.2

theorem get_set_self (d₀ : α) (d : List (ℤ × α)) (k : ℤ) (v : α) :
    get d₀ (set d k v) k = v := by
  unfold set
  by_cases h : hasKey d k
  · simp only [h, if_true, get_repl_self d₀ v (hasKey_iff.mp h)]
  · have hk : k ∉ keys d := fun hm => h (hasKey_iff.mpr hm)
    simp only [h, Bool.false_eq_true, if_false, get_append_single_self d₀ v hk]

theorem get_set_ne (d₀ : α) (d : List (ℤ × α)) {k k' : ℤ} (v : α)
    (h : k' ≠ k) : get d₀ (set d k v) k' = get d₀ d k' := by
  unfold set
  by_cases hh : hasKey d k
  · simp only [hh, if_true, get_repl_ne d₀ v h]
  · simp only [hh, Bool.false_eq_true, if_false, get_append_single_ne d₀ d v h]

theorem mem_keys_set {d : List (ℤ × α)} {k k' : ℤ} {v : α} :
    k' ∈ keys (set d k v) ↔ k' = k ∨ k' ∈ keys d := by
  unfold set
  by_cases hh : hasKey d k
  · have hk : k ∈ keys d := hasKey_iff.mp hh
    simp only [hh, if_true, keys_repl]
    constructor
    · exact Or.inr
    · rintro (rfl | h)
      · exact hk
      · exact h
  · simp only [hh, Bool.false_eq_true, if_false, keys_append, List.mem_append,
      keys_cons, keys_nil, List.mem_singleton]
    tauto

theorem get_del_ne (d₀ : α) (d : List (ℤ × α)) {k k' : ℤ}
    (h : k' ≠ k) : get d₀ (del d k) k' = get d₀ d k' := by
  induction d with
  | nil => rfl
  | cons p rest ih =>
    by_cases hk : p.1 = k
    · have h2 : ¬ p.1 = k' := fun hh => h (hh ▸ hk ▸ rfl)
      have h3 : ¬ k = k' := fun hh => h hh.symm
      simp [hk, h2, h3, ih]
    · simp [hk, ih]

theorem mem_keys_del {d : List (ℤ × α)} {k k' : ℤ} :
    k' ∈ keys (del d k) ↔ k' ∈ keys d ∧ k' ≠ k := by
  induction d with
  | nil => simp
  | cons p rest ih =>
    by_cases hk : p.1 = k
    · simp only [del_cons, if_pos hk, ih, keys_cons, List.mem_cons]
      constructor
      · rintro ⟨h1, h2⟩
        exact ⟨Or.inr h1, h2⟩
      · rintro ⟨h1 | h1, h2⟩
        · exact absurd (h1.trans hk) h2
        · exact ⟨h1, h2⟩
    · simp only [del_cons, if_neg hk, keys_cons, List.mem_cons, ih]
      constructor
      · rintro (rfl | ⟨h1, h2⟩)
        · exact ⟨Or.inl rfl, fun hkk => hk (hkk ▸ rfl)⟩
        · exact ⟨Or.inr h1, h2⟩
      · rintro ⟨rfl | h1, h2⟩
        · exact Or.inl rfl
        · exact Or.inr ⟨h1, h2⟩

theorem keys_modify (skip : ℤ → Bool) (f : ℤ → α → α) (d : List (ℤ × α)) :
    keys (modify skip f d) = keys d := by
  induction d with
  | nil => rfl
  | cons p rest ih =>
    by_cases hs : skip p.1 <;> simp [hs, ih]

theorem get_modify_mem (d₀ : α) {skip : ℤ → Bool} {f : ℤ → α → α}
    {d : List (ℤ × α)} {k : ℤ} (h : k ∈ keys d) :
    get d₀ (modify skip f d) k =
      if skip k then get d₀ d k else f k (get d₀ d k) := by
  induction d with
  | nil => simp at h
  | cons p rest ih =>
    by_cases hk : p.1 = k
    · subst hk
      by_cases hs : skip p.1 <;> simp [hs]
    · rw [keys_cons, List.mem_cons] at h
      have hmem : k ∈ keys rest := h.resolve_left (fun hh => hk hh.symm)
      by_cases hs : skip p.1 <;> simp [hs, hk, ih hmem]

theorem mem_of_mem_del {d : List (ℤ × α)} {k : ℤ} {p : ℤ × α}
    (h : p ∈ del d k) : p ∈ d := by
  induction d with
  | nil => simp at h
  | cons q rest ih =>
    by_cases hk : q.1 = k
    · rw [del_cons, if_pos hk] at h
      exact List.mem_cons_of_mem _ (ih h)
    · rw [del_cons, if_neg hk, List.mem_cons] at h
      rcases h with rfl | h
      · exact List.mem_cons_self _ _
      · exact List.mem_cons_of_mem _ (ih h)

theorem mem_repl_cases {d : List (ℤ × α)} {k : ℤ} {v : α} {p : ℤ × α}
    (h : p ∈ repl d k v) : p = (k, v) ∨ p ∈ d := by
  induction d with
  | nil => simp at h
  | cons q rest ih =>
    by_cases hk : q.1 = k
    · rw [repl_cons, if_pos hk, List.mem_cons] at h
      rcases h with rfl | h
      · exact Or.inl rfl
      · rcases ih h with h | h
        · exact Or.inl h
        · exact Or.inr (List.mem_cons_of_mem _ h)
    · rw [repl_cons, if_neg hk, List.mem_cons] at h
      rcases h with rfl | h
      · exact Or.inr (List.mem_cons_self _ _)
      · rcases ih h with h | h
        · exact Or.inl h
        · exact Or.inr (List.mem_cons_of_mem _ h)

theorem mem_set_cases {d : List (ℤ × α)} {k : ℤ} {v : α} {p : ℤ × α}
    (h : p ∈ set d k v) : p = (k, v) ∨ p ∈ d := by
  unfold set at h
  by_cases hh : hasKey d k
  · rw [if_pos hh] at h
    exact mem_repl_cases h
  · rw [if_neg (by simpa using hh), List.mem_append, List.mem_singleton] at h
    tauto

theorem mem_modify_cases {skip : ℤ → Bool} {f : ℤ → α → α}
    {d : List (ℤ × α)} {p : ℤ × α} (h : p ∈ modify skip f d) :
    ∃ q ∈ d, p = if skip q.1 then q else (q.1, f q.1 q.2) := by
  induction d with
  | nil => simp at h
  | cons q rest ih =>
    rw [modify_cons, List.mem_cons] at h
    rcases h with rfl | h
    · exact ⟨q, List.mem_cons_self _ _, rfl⟩
    · rcases ih h with ⟨r, hr, hpr⟩
      exact ⟨r, List.mem_cons_of_mem _ hr, hpr⟩

theorem nodup_keys_set {d : List (ℤ × α)} {k : ℤ} {v : α}
    (h : (keys d).Nodup) : (keys (set d k v)).Nodup := by
  unfold set
  by_cases hh : hasKey d k
  · rw [if_pos hh, keys_repl]
    exact h
  · have hk : k ∉ keys d := fun hm => hh (hasKey_iff.mpr hm)
    simp only [hh, Bool.false_eq_true, if_false, keys_append, keys_cons, keys_nil]
    rw [List.nodup_append]
    refine ⟨h, List.nodup_singleton _, ?_⟩
    intro a ha hak
    rw [List.mem_singleton] at hak
    exact hk (hak ▸ ha)

theorem nodup_keys_del {d : List (ℤ × α)} {k : ℤ}
    (h : (keys d).Nodup) : (keys (del d k)).Nodup := by
  induction d with
  | nil => simp
  | cons p rest ih =>
    rw [keys_cons, List.nodup_cons] at h
    by_cases hk : p.1 = k
    · simp only [del_cons, if_pos hk]
      exact ih h.2
    · simp only [del_cons, if_neg hk, keys_cons, List.nodup_cons]
      exact ⟨fun hm => h.1 (mem_keys_del.mp hm).1, ih h.2⟩

theorem nodup_keys_modify {skip : ℤ → Bool} {f : ℤ → α → α}
    {d : List (ℤ × α)} (h : (keys d).Nodup) :
    (keys (modify skip f d)).Nodup := by
  simpa [keys_modify] using h

end Dict

theorem mem_keys_scaleRow {ale : ℚ} {e j : ℤ} {row : Row} :
    j ∈ Dict.keys (scaleRow ale e row) ↔ j ∈ Dict.keys row ∧ j ≠ e := by
  induction row with
  | nil => simp [scaleRow]
  | cons p rest ih =>
    by_cases hp : p.1 = e
    · simp only [scaleRow, if_pos hp, ih, Dict.keys_cons, List.mem_cons]
      constructor
      · rintro ⟨h1, h2⟩
        exact ⟨Or.inr h1, h2⟩
      · rintro ⟨h1 | h1, h2⟩
        · exact absurd (h1.trans hp) h2
        · exact ⟨h1, h2⟩
    · simp only [scaleRow, if_neg hp, Dict.keys_cons, List.mem_cons, ih]
      constructor
      · rintro (rfl | ⟨h1, h2⟩)
        · exact ⟨Or.inl rfl, fun hh => hp (hh ▸ rfl)⟩
        · exact ⟨Or.inr h1, h2⟩
      · rintro ⟨rfl | h1, h2⟩
        · exact Or.inl rfl
        · exact Or.inr ⟨h1, h2⟩

theorem get_scaleRow {ale : ℚ} {e j : ℤ} {row : Row}
    (hje : j ≠ e) (hj : j ∈ Dict.keys row) :
    Dict.get 0 (scaleRow ale e row) j = - Dict.get 0 row j / ale := by
  induction row with
  | nil => simp at hj
  | cons p rest ih =>
    by_cases hp : p.1 = e
    · have hpj : ¬ p.1 = j := fun hh => hje (hh ▸ hp ▸ rfl)
      rw [Dict.keys_cons, List.mem_cons] at hj
      have hmem : j ∈ Dict.keys rest := hj.resolve_left (fun hh => hpj hh.symm)
      simp only [scaleRow, if_pos hp, Dict.get_cons, if_neg hpj, ih hmem]
    · by_cases hpj : p.1 = j
      · simp only [scaleRow, if_neg hp, Dict.get_cons, if_pos hpj]
      · rw [Dict.keys_cons, List.mem_cons] at hj
        have hmem : j ∈ Dict.keys rest := hj.resolve_left (fun hh => hpj hh.symm)
        simp only [scaleRow, if_neg hp, Dict.get_cons, if_neg hpj, ih hmem]

theorem nodup_keys_scaleRow {ale : ℚ} {e : ℤ} {row : Row}
    (h : (Dict.keys row).Nodup) : (Dict.keys (scaleRow ale e row)).Nodup := by
  induction row with
  | nil => simp [scaleRow]
  | cons p rest ih =>
    rw [Dict.keys_cons, List.nodup_cons] at h
    by_cases hp : p.1 = e
    · simp only [scaleRow, if_pos hp]
      exact ih h.2
    · simp only [scaleRow, if_neg hp, Dict.keys_cons, List.nodup_cons]
      exact ⟨fun hm => h.1 (mem_keys_scaleRow.mp hm).1, ih h.2⟩

theorem rowl_mem_A {S : SlackForm} {l : ℤ} (hl : l ∈ Dict.keys S.A) :
    (l, rowOf S l) ∈ S.A :=
  Dict.get_mem [] hl

theorem mem_keys_rowl {S : SlackForm} {l : ℤ} (hInv : Inv S)
    (hl : l ∈ Dict.keys S.A) {k : ℤ} :
    k ∈ Dict.keys (rowOf S l) ↔ k ∈ Dict.keys S.c ∧ k ≠ -1 :=
  ⟨fun h => hInv.rowKeysSub _ (rowl_mem_A hl) k h,
   fun h => hInv.rowKeysSup _ (rowl_mem_A hl) k h.1 h.2⟩

theorem nodup_keys_rowl {S : SlackForm} {l : ℤ} (hInv : Inv S)
    (hl : l ∈ Dict.keys S.A) : (Dict.keys (rowOf S l)).Nodup :=
  hInv.nodupRow _ (rowl_mem_A hl)

theorem basic_not_nonbasic {S : SlackForm} {l : ℤ} (hInv : Inv S)
    (hl : l ∈ Dict.keys S.A) : l ∉ Dict.keys S.c :=
  hInv.disjBN l hl

theorem basic_ne_neg_one {S : SlackForm} {l : ℤ} (hInv : Inv S)
    (hl : l ∈ Dict.keys S.A) : l ≠ -1 :=
  fun h => hInv.disjBN l hl (by rw [h]; exact hInv.hasV)

theorem nonbasic_not_basic {S : SlackForm} {e : ℤ} (hInv : Inv S)
    (he : e ∈ Dict.keys S.c) : e ∉ Dict.keys S.A :=
  fun hA => hInv.disjBN e hA he

theorem nonbasic_not_in_b {S : SlackForm} {e : ℤ} (hInv : Inv S)
    (he : e ∈ Dict.keys S.c) : e ∉ Dict.keys S.b :=
  fun hb => nonbasic_not_basic hInv he (hInv.keysBA e hb)

theorem basic_mem_b {S : SlackForm} {l : ℤ} (hInv : Inv S)
    (hl : l ∈ Dict.keys S.A) : l ∈ Dict.keys S.b :=
  hInv.keysAB l hl

theorem leaving_ne_entering {S : SlackForm} {e l : ℤ} (hInv : Inv S)
    (he : e ∈ Dict.keys S.c) (hl : l ∈ Dict.keys S.A) : l ≠ e :=
  fun h => nonbasic_not_basic hInv he (h ▸ hl)

theorem e_mem_rowl {S : SlackForm} {e l : ℤ} (hInv : Inv S)
    (he : e ∈ Dict.keys S.c) (he1 : e ≠ -1) (hl : l ∈ Dict.keys S.A) :
    e ∈ Dict.keys (rowOf S l) :=
  (mem_keys_rowl hInv hl).mpr ⟨he, he1⟩

theorem l_not_mem_rowl {S : SlackForm} {l : ℤ} (hInv : Inv S)
    (hl : l ∈ Dict.keys S.A) : l ∉ Dict.keys (rowOf S l) :=
  fun h => basic_not_nonbasic hInv hl ((mem_keys_rowl hInv hl).mp h).1

theorem get_pivRowe_l (S : SlackForm) (e l : ℤ) :
    Dict.get 0 (pivRowe S e l) l = 1 / pivAle S e l := by
  unfold pivRowe
  exact Dict.get_set_self 0 _ l _

theorem get_pivRowe_of_ne {S : SlackForm} {e l j : ℤ} (hInv : Inv S)
    (hl : l ∈ Dict.keys S.A) (hjl : j ≠ l) (hje : j ≠ e)
    (hjc : j ∈ Dict.keys S.c) (hj1 : j ≠ -1) :
    Dict.get 0 (pivRowe S e l) j = - aCoef S l j / pivAle S e l := by
  unfold pivRowe
  rw [Dict.get_set_ne _ _ _ hjl,
    get_scaleRow hje ((mem_keys_rowl hInv hl).mpr ⟨hjc, hj1⟩)]
  rfl

theorem mem_keys_pivRowe {S : SlackForm} {e l : ℤ} (hInv : Inv S)
    (hl : l ∈ Dict.keys S.A) {k : ℤ} :
    k ∈ Dict.keys (pivRowe S e l) ↔
      k = l ∨ (k ∈ Dict.keys S.c ∧ k ≠ -1 ∧ k ≠ e) := by
  unfold pivRowe
  rw [Dict.mem_keys_set, mem_keys_scaleRow, mem_keys_rowl hInv hl]
  tauto

theorem nodup_keys_pivRowe {S : SlackForm} {e l : ℤ} (hInv : Inv S)
    (hl : l ∈ Dict.keys S.A) : (Dict.keys (pivRowe S e l)).Nodup :=
  Dict.nodup_keys_set (nodup_keys_scaleRow (nodup_keys_rowl hInv hl))

theorem mem_keys_pivA1 {S : SlackForm} {e l k : ℤ} :
    k ∈ Dict.keys (pivA1 S e l) ↔ (k = e ∨ k ∈ Dict.keys S.A) ∧ k ≠ l := by
  unfold pivA1
  rw [Dict.mem_keys_del, Dict.mem_keys_set]

theorem get_pivA1_e {S : SlackForm} {e l : ℤ} (hle : e ≠ l) :
    Dict.get [] (pivA1 S e l) e = pivRowe S e l := by
  unfold pivA1
  rw [Dict.get_del_ne _ _ hle, Dict.get_set_self]

theorem get_pivA1_ne {S : SlackForm} {e l i : ℤ} (hie : i ≠ e) (hil : i ≠ l) :
    Dict.get [] (pivA1 S e l) i = Dict.get [] S.A i := by
  unfold pivA1
  rw [Dict.get_del_ne _ _ hil, Dict.get_set_ne _ _ _ hie]

theorem keys_pivA2 (S : SlackForm) (e l : ℤ) :
    Dict.keys (pivA2 S e l) = Dict.keys (pivA1 S e l) := by
  unfold pivA2
  exact Dict.keys_modify _ _ _

theorem mem_keys_pivA2 {S : SlackForm} {e l k : ℤ} :
    k ∈ Dict.keys (pivA2 S e l) ↔ (k = e ∨ k ∈ Dict.keys S.A) ∧ k ≠ l := by
  rw [keys_pivA2]
  exact mem_keys_pivA1

theorem get_pivA2_e {S : SlackForm} {e l : ℤ} (hle : e ≠ l) :
    Dict.get [] (pivA2 S e l) e = pivRowe S e l := by
  unfold pivA2
  rw [Dict.get_modify_mem [] (mem_keys_pivA1.mpr ⟨Or.inl rfl, hle⟩)]
  simp only [beq_self_eq_true, if_true]
  exact get_pivA1_e hle

theorem get_pivA2_ne {S : SlackForm} {e l i : ℤ} (hiA : i ∈ Dict.keys S.A)
    (hie : i ≠ e) (hil : i ≠ l) :
    Dict.get [] (pivA2 S e l) i =
      pivotRowI (pivRowe S e l) e l (Dict.get [] S.A i) := by
  unfold pivA2
  rw [Dict.get_modify_mem [] (mem_keys_pivA1.mpr ⟨Or.inr hiA, hil⟩)]
  rw [if_neg (by simp [hie]), get_pivA1_ne hie hil]

theorem get_pivotRowI_l {rowe : Row} {e l : ℤ} {row : Row} (hle : l ≠ e) :
    Dict.get 0 (pivotRowI rowe e l row) l =
      Dict.get 0 row e * Dict.get 0 rowe l := by
  unfold pivotRowI
  rw [Dict.get_del_ne _ _ hle, Dict.get_set_self]

theorem get_pivotRowI_mem {rowe : Row} {e l : ℤ} {row : Row} {j : ℤ}
    (hje : j ≠ e) (hjl : j ≠ l) (hj : j ∈ Dict.keys row) :
    Dict.get 0 (pivotRowI rowe e l row) j =
      Dict.get 0 row j + Dict.get 0 row e * Dict.get 0 rowe j := by
  unfold pivotRowI
  rw [Dict.get_del_ne _ _ hje, Dict.get_set_ne _ _ _ hjl,
    Dict.get_modify_mem 0 hj]
  rw [if_neg (by simp [hje])]

theorem mem_keys_pivotRowI {rowe : Row} {e l : ℤ} {row : Row} {k : ℤ} :
    k ∈ Dict.keys (pivotRowI rowe e l row) ↔
      (k = l ∨ k ∈ Dict.keys row) ∧ k ≠ e := by
  unfold pivotRowI
  rw [Dict.mem_keys_del, Dict.mem_keys_set, Dict.keys_modify]

theorem nodup_keys_pivotRowI {rowe : Row} {e l : ℤ} {row : Row}
    (h : (Dict.keys row).Nodup) :
    (Dict.keys (pivotRowI rowe e l row)).Nodup :=
  Dict.nodup_keys_del (Dict.nodup_keys_set (Dict.nodup_keys_modify h))

theorem mem_keys_pivB1 {S : SlackForm} {e l k : ℤ} :
    k ∈ Dict.keys (pivB1 S e l) ↔ (k = e ∨ k ∈ Dict.keys S.b) ∧ k ≠ l := by
  unfold pivB1
  rw [Dict.mem_keys_del, Dict.mem_keys_set]

theorem get_pivB1_e {S : SlackForm} {e l : ℤ} (hle : e ≠ l) :
    Dict.get 0 (pivB1 S e l) e = pivBe S e l := by
  unfold pivB1
  rw [Dict.get_del_ne _ _ hle, Dict.get_set_self]

theorem get_pivB1_ne {S : SlackForm} {e l i : ℤ} (hie : i ≠ e) (hil : i ≠ l) :
    Dict.get 0 (pivB1 S e l) i = Dict.get 0 S.b i := by
  unfold pivB1
  rw [Dict.get_del_ne _ _ hil, Dict.get_set_ne _ _ _ hie]

theorem keys_pivB2 (S : SlackForm) (e l : ℤ) :
    Dict.keys (pivB2 S e l) = Dict.keys (pivB1 S e l) := by
  unfold pivB2
  exact Dict.keys_modify _ _ _

theorem mem_keys_pivB2 {S : SlackForm} {e l k : ℤ} :
    k ∈ Dict.keys (pivB2 S e l) ↔ (k = e ∨ k ∈ Dict.keys S.b) ∧ k ≠ l := by
  rw [keys_pivB2]
  exact mem_keys_pivB1

theorem get_pivB2_e {S : SlackForm} {e l : ℤ} (hle : e ≠ l) :
    Dict.get 0 (pivB2 S e l) e = pivBe S e l := by
  unfold pivB2
  rw [Dict.get_modify_mem 0 (mem_keys_pivB1.mpr ⟨Or.inl rfl, hle⟩)]
  simp only [beq_self_eq_true, if_true]
  exact get_pivB1_e hle

theorem get_pivB2_ne {S : SlackForm} {e l i : ℤ} (hib : i ∈ Dict.keys S.b)
    (hie : i ≠ e) (hil : i ≠ l) :
    Dict.get 0 (pivB2 S e l) i =
      Dict.get 0 S.b i + Dict.get 0 (Dict.get [] S.A i) e * pivBe S e l := by
  unfold pivB2
  rw [Dict.get_modify_mem 0 (mem_keys_pivB1.mpr ⟨Or.inr hib, hil⟩)]
  rw [if_neg (by simp [hie]), get_pivB1_ne hie hil, get_pivA1_ne hie hil]

theorem mem_keys_pivC1 {S : SlackForm} {e l : ℤ}
    (hasV : (-1 : ℤ) ∈ Dict.keys S.c) {k : ℤ} :
    k ∈ Dict.keys (pivC1 S e l) ↔ k ∈ Dict.keys S.c := by
  unfold pivC1
  rw [Dict.mem_keys_set]
  constructor
  · rintro (rfl | h)
    · exact hasV
    · exact h
  · exact Or.inr

theorem get_pivC1_neg_one (S : SlackForm) (e l : ℤ) :
    Dict.get 0 (pivC1 S e l) (-1) =
      Dict.get 0 S.c (-1) + Dict.get 0 S.c e * pivBe S e l := by
  unfold pivC1
  exact Dict.get_set_self 0 _ _ _

theorem get_pivC1_ne {S : SlackForm} {e l j : ℤ} (hj1 : j ≠ -1) :
    Dict.get 0 (pivC1 S e l) j = Dict.get 0 S.c j := by
  unfold pivC1
  exact Dict.get_set_ne 0 _ _ hj1

theorem get_pivC2_neg_one {S : SlackForm} {e l : ℤ} (he1 : e ≠ -1)
    (hl1 : l ≠ -1) (hasV : (-1 : ℤ) ∈ Dict.keys S.c) :
    Dict.get 0 (pivC2 S e l) (-1) =
      Dict.get 0 S.c (-1) + Dict.get 0 S.c e * pivBe S e l := by
  unfold pivC2
  rw [Dict.get_del_ne _ _ (fun h => he1 h.symm),
    Dict.get_set_ne _ _ _ (fun h => hl1 h.symm),
    Dict.get_modify_mem 0 ((mem_keys_pivC1 hasV).mpr hasV)]
  rw [if_pos (by simp)]
  exact get_pivC1_neg_one S e l

theorem get_pivC2_l {S : SlackForm} {e l : ℤ} (he1 : e ≠ -1) (hle : l ≠ e) :
    Dict.get 0 (pivC2 S e l) l =
      Dict.get 0 S.c e * Dict.get 0 (pivRowe S e l) l := by
  unfold pivC2
  rw [Dict.get_del_ne _ _ hle, Dict.get_set_self, get_pivC1_ne he1]

theorem get_pivC2_mem {S : SlackForm} {e l j : ℤ} (hj : j ∈ Dict.keys S.c)
    (hje : j ≠ e) (hjl : j ≠ l) (hj1 : j ≠ -1) (he1 : e ≠ -1)
    (hasV : (-1 : ℤ) ∈ Dict.keys S.c) :
    Dict.get 0 (pivC2 S e l) j =
      Dict.get 0 S.c j + Dict.get 0 S.c e * Dict.get 0 (pivRowe S e l) j := by
  unfold pivC2
  rw [Dict.get_del_ne _ _ hje, Dict.get_set_ne _ _ _ hjl,
    Dict.get_modify_mem 0 ((mem_keys_pivC1 hasV).mpr hj)]
  rw [if_neg (by simp [hje, hj1]), get_pivC1_ne hj1, get_pivC1_ne he1]

theorem mem_keys_pivC2 {S : SlackForm} {e l : ℤ}
    (hasV : (-1 : ℤ) ∈ Dict.keys S.c) {k : ℤ} :
    k ∈ Dict.keys (pivC2 S e l) ↔
      (k = l ∨ k ∈ Dict.keys S.c) ∧ k ≠ e := by
  unfold pivC2
  rw [Dict.mem_keys_del, Dict.mem_keys_set, Dict.keys_modify,
    mem_keys_pivC1 hasV]

theorem nodup_keys_pivC2 {S : SlackForm} {e l : ℤ}
    (h : (Dict.keys S.c).Nodup) : (Dict.keys (pivC2 S e l)).Nodup := by
  unfold pivC2 pivC1
  exact Dict.nodup_keys_del
    (Dict.nodup_keys_set (Dict.nodup_keys_modify (Dict.nodup_keys_set h)))

theorem nodup_keys_pivA2 {S : SlackForm} {e l : ℤ}
    (h : (Dict.keys S.A).Nodup) : (Dict.keys (pivA2 S e l)).Nodup := by
  unfold pivA2 pivA1
  exact Dict.nodup_keys_modify (Dict.nodup_keys_del (Dict.nodup_keys_set h))

theorem nodup_keys_pivB2 {S : SlackForm} {e l : ℤ}
    (h : (Dict.keys S.b).Nodup) : (Dict.keys (pivB2 S e l)).Nodup := by
  unfold pivB2 pivB1
  exact Dict.nodup_keys_modify (Dict.nodup_keys_del (Dict.nodup_keys_set h))


theorem mem_del_ne {α : Type} {d : List (ℤ × α)} {k : ℤ} {p : ℤ × α}
    (h : p ∈ Dict.del d k) : p.1 ≠ k := by
  induction d with
  | nil => simp at h
  | cons q rest ih =>
    by_cases hk : q.1 = k
    · rw [Dict.del_cons, if_pos hk] at h
      exact ih h
    · rw [Dict.del_cons, if_neg hk, List.mem_cons] at h
      rcases h with rfl | h
      · exact hk
      · exact ih h

theorem mem_pivA1_cases {S : SlackForm} {e l : ℤ} (heA : e ∉ Dict.keys S.A)
    {q : ℤ × Row} (hq : q ∈ pivA1 S e l) :
    q = (e, pivRowe S e l) ∨ (q ∈ S.A ∧ q.1 ≠ e ∧ q.1 ≠ l) := by
  have hql : q.1 ≠ l := mem_del_ne (by unfold pivA1 at hq; exact hq)
  unfold pivA1 at hq
  rcases Dict.mem_set_cases (Dict.mem_of_mem_del hq) with h | h
  · exact Or.inl h
  · exact Or.inr ⟨h, fun hh => heA (hh ▸ Dict.mem_keys_of_mem h), hql⟩

theorem mem_pivA2_cases {S : SlackForm} {e l : ℤ} (heA : e ∉ Dict.keys S.A)
    {p : ℤ × Row} (hp : p ∈ pivA2 S e l) :
    p = (e, pivRowe S e l) ∨
      ∃ q ∈ S.A, q.1 ≠ e ∧ q.1 ≠ l ∧
        p = (q.1, pivotRowI (pivRowe S e l) e l q.2) := by
  unfold pivA2 at hp
  rcases Dict.mem_modify_cases hp with ⟨q, hq, hpq⟩
  by_cases hqe : q.1 = e
  · rcases mem_pivA1_cases heA hq with h | h
    · rw [if_pos (by simp [hqe])] at hpq
      exact Or.inl (hpq.trans h)
    · exact absurd hqe h.2.1
  · rcases mem_pivA1_cases heA hq with h | h
    · exact absurd (by rw [h]) hqe
    · rw [if_neg (by simp [hqe])] at hpq
      exact Or.inr ⟨q, h.1, hqe, h.2.2, hpq⟩

/-- `pivot` preserves the structural dictionary invariant whenever it is
called on a nonbasic entering index and a basic leaving index. -/
theorem Inv_pivot {S : SlackForm} {e l : ℤ} (hInv : Inv S)
    (he : e ∈ Dict.keys S.c) (he1 : e ≠ -1) (hl : l ∈ Dict.keys S.A) :
    Inv (pivot S e l) := by
  have hle : e ≠ l := (leaving_ne_entering hInv he hl).symm
  have hl1 : l ≠ -1 := basic_ne_neg_one hInv hl
  have heA : e ∉ Dict.keys S.A := nonbasic_not_basic hInv he
  refine ⟨?_, ?_, ?_, ?_, ?_, ?_, ?_, ?_, ?_, ?_⟩
  · exact nodup_keys_pivA2 hInv.nodupA
  · exact nodup_keys_pivB2 hInv.nodupB
  · exact nodup_keys_pivC2 hInv.nodupC
  · intro p hp
    rcases mem_pivA2_cases heA hp with rfl | ⟨q, hq, hqe, hql, rfl⟩
    · exact nodup_keys_pivRowe hInv hl
    · exact nodup_keys_pivotRowI (hInv.nodupRow q hq)
  · intro k hk
    rcases mem_keys_pivA2.mp hk with ⟨hk1, hk2⟩
    refine mem_keys_pivB2.mpr ⟨?_, hk2⟩
    rcases hk1 with rfl | hk1
    · exact Or.inl rfl
    · exact Or.inr (hInv.keysAB k hk1)
  · intro k hk
    rcases mem_keys_pivB2.mp hk with ⟨hk1, hk2⟩
    refine mem_keys_pivA2.mpr ⟨?_, hk2⟩
    rcases hk1 with rfl | hk1
    · exact Or.inl rfl
    · exact Or.inr (hInv.keysBA k hk1)
  · intro p hp k hk
    rcases mem_pivA2_cases heA hp with rfl | ⟨q, hq, hqe, hql, rfl⟩
    · rcases (mem_keys_pivRowe hInv hl).mp hk with rfl | ⟨hkc, hk1, hke⟩
      · exact ⟨(mem_keys_pivC2 hInv.hasV).mpr ⟨Or.inl rfl, fun h => hle h.symm⟩, hl1⟩
      · exact ⟨(mem_keys_pivC2 hInv.hasV).mpr ⟨Or.inr hkc, hke⟩, hk1⟩
    · rcases mem_keys_pivotRowI.mp hk with ⟨rfl | hk1, hke⟩
      · exact ⟨(mem_keys_pivC2 hInv.hasV).mpr ⟨Or.inl rfl, fun h => hle h.symm⟩, hl1⟩
      · rcases hInv.rowKeysSub q hq k hk1 with ⟨hkc, hk2⟩
        exact ⟨(mem_keys_pivC2 hInv.hasV).mpr ⟨Or.inr hkc, hke⟩, hk2⟩
  · intro p hp k hk hk1
    rcases (mem_keys_pivC2 hInv.hasV).mp hk with ⟨hk2, hke⟩
    rcases mem_pivA2_cases heA hp with rfl | ⟨q, hq, hqe, hql, rfl⟩
    · refine (mem_keys_pivRowe hInv hl).mpr ?_
      rcases hk2 with rfl | hk2
      · exact Or.inl rfl
      · exact Or.inr ⟨hk2, hk1, hke⟩
    · refine mem_keys_pivotRowI.mpr ⟨?_, hke⟩
      rcases hk2 with rfl | hk2
      · exact Or.inl rfl
      · exact Or.inr (hInv.rowKeysSup q hq k hk2 hk1)
  · intro k hk hkc
    rcases mem_keys_pivA2.mp hk with ⟨hk1, hk2⟩
    rcases (mem_keys_pivC2 hInv.hasV).mp hkc with ⟨hk3, hke⟩
    rcases hk1 with rfl | hk1
    · exact hke rfl
    · rcases hk3 with rfl | hk3
      · exact hk2 rfl
      · exact hInv.disjBN k hk1 hk3
  · exact (mem_keys_pivC2 hInv.hasV).mpr ⟨Or.inr hInv.hasV, fun h => he1 h.symm⟩


theorem get_eq_of_mem {α : Type} (d₀ : α) {d : List (ℤ × α)} {k : ℤ} {v : α}
    (hnd : (Dict.keys d).Nodup) (h : (k, v) ∈ d) : Dict.get d₀ d k = v := by
  induction d with
  | nil => simp at h
  | cons p rest ih =>
    rw [Dict.keys_cons, List.nodup_cons] at hnd
    rw [List.mem_cons] at h
    by_cases hk : p.1 = k
    · rcases h with rfl | h
      · simp
      · exact absurd (hk ▸ Dict.mem_keys_of_mem h : p.1 ∈ Dict.keys rest) (hk ▸ hnd.1)
    · rcases h with rfl | h
      · exact absurd rfl hk
      · simp only [Dict.get_cons, if_neg hk]
        exact ih hnd.2 h

theorem keys_map_snd {α : Type} (f : α → α) (d : List (ℤ × α)) :
    Dict.keys (d.map (fun p => (p.1, f p.2))) = Dict.keys d := by
  induction d with
  | nil => rfl
  | cons p rest ih => simp [ih]

theorem get_map_snd {α : Type} (d₀ : α) (f : α → α) {d : List (ℤ × α)} {k : ℤ}
    (h : k ∈ Dict.keys d) :
    Dict.get d₀ (d.map (fun p => (p.1, f p.2))) k = f (Dict.get d₀ d k) := by
  induction d with
  | nil => simp at h
  | cons p rest ih =>
    by_cases hk : p.1 = k
    · simp [hk]
    · rw [Dict.keys_cons, List.mem_cons] at h
      have hmem : k ∈ Dict.keys rest := h.resolve_left (fun hh => hk hh.symm)
      simp only [List.map_cons, Dict.get_cons, if_neg hk]
      exact ih hmem

theorem can_improve_spec {c : List (ℤ × ℚ)} {e : ℤ}
    (hnd : (Dict.keys c).Nodup) (h : can_improve c = some e) :
    e ∈ Dict.keys c ∧ e ≠ -1 ∧ 0 < Dict.get 0 c e := by
  induction c with
  | nil => simp [can_improve] at h
  | cons p rest ih =>
    rw [Dict.keys_cons, List.nodup_cons] at hnd
    by_cases hc : 0 < p.2 ∧ p.1 ≠ -1
    · rw [can_improve, if_pos hc, Option.some_inj] at h
      subst h
      refine ⟨Dict.mem_keys_of_mem (List.mem_cons_self _ _), hc.2, ?_⟩
      simp only [Dict.get_cons, if_pos rfl]
      exact hc.1
    · rw [can_improve, if_neg hc] at h
      obtain ⟨h1, h2, h3⟩ := ih hnd.2 h
      have hpe : ¬ p.1 = e := fun hh => hnd.1 (hh ▸ h1)
      refine ⟨List.mem_cons_of_mem _ h1, h2, ?_⟩
      simp only [Dict.get_cons, if_neg hpe]
      exact h3

theorem can_improve_none {c : List (ℤ × ℚ)} (h : can_improve c = none) :
    ∀ p ∈ c, p.1 ≠ -1 → p.2 ≤ 0 := by
  induction c with
  | nil => intro p hp; simp at hp
  | cons q rest ih =>
    by_cases hc : 0 < q.2 ∧ q.1 ≠ -1
    · rw [can_improve, if_pos hc] at h
      exact absurd h (by simp)
    · rw [can_improve, if_neg hc] at h
      intro p hp hp1
      rcases List.mem_cons.mp hp with rfl | hp2
      · push_neg at hc
        exact not_lt.mp (fun hq => absurd (hc hq) (by simpa using hp1))
      · exact ih h p hp2 hp1

theorem can_improve_none_get {c : List (ℤ × ℚ)} (h : can_improve c = none) :
    ∀ j ∈ Dict.keys c, j ≠ -1 → Dict.get 0 c j ≤ 0 := by
  intro j hj hj1
  exact can_improve_none h (j, Dict.get 0 c j) (Dict.get_mem 0 hj) hj1

theorem selectLeaving_some_acc {b : List (ℤ × ℚ)} {e : ℤ}
    (rows : List (ℤ × Row)) (q : ℚ × ℤ) :
    selectLeaving b e rows (some q) ≠ none := by
  induction rows generalizing q with
  | nil => simp [selectLeaving]
  | cons p rest ih =>
    rw [selectLeaving]
    by_cases hneg : Dict.get 0 p.2 e < 0
    · rw [if_pos hneg]
      by_cases hlt : - Dict.get 0 b p.1 / Dict.get 0 p.2 e < q.1
      · rw [if_pos hlt]
        exact ih _
      · rw [if_neg hlt]
        exact ih _
    · rw [if_neg hneg]
      exact ih _

theorem selectLeaving_none {b : List (ℤ × ℚ)} {e : ℤ}
    {rows : List (ℤ × Row)} {acc : Option (ℚ × ℤ)}
    (h : selectLeaving b e rows acc = none) :
    acc = none ∧ ∀ p ∈ rows, ¬ Dict.get 0 p.2 e < 0 := by
  induction rows generalizing acc with
  | nil => exact ⟨h, by simp⟩
  | cons p rest ih =>
    rcases acc with _ | q
    · rw [selectLeaving] at h
      by_cases hneg : Dict.get 0 p.2 e < 0
      · rw [if_pos hneg] at h
        exact absurd h (selectLeaving_some_acc _ _)
      · rw [if_neg hneg] at h
        obtain ⟨h1, h2⟩ := ih h
        refine ⟨rfl, ?_⟩
        intro p' hp'
        rcases List.mem_cons.mp hp' with rfl | hp2
        · exact hneg
        · exact h2 p' hp2
    · rw [selectLeaving] at h
      by_cases hneg : Dict.get 0 p.2 e < 0
      · rw [if_pos hneg] at h
        by_cases hlt : - Dict.get 0 b p.1 / Dict.get 0 p.2 e < q.1
        · rw [if_pos hlt] at h
          exact absurd h (selectLeaving_some_acc _ _)
        · rw [if_neg hlt] at h
          exact absurd h (selectLeaving_some_acc _ _)
      · rw [if_neg hneg] at h
        exact absurd h (selectLeaving_some_acc _ _)

theorem selectLeaving_some {b : List (ℤ × ℚ)} {e : ℤ} :
    ∀ {rows : List (ℤ × Row)} {acc : Option (ℚ × ℤ)} {tb : ℚ} {l : ℤ},
    selectLeaving b e rows acc = some (tb, l) →
    (acc = some (tb, l) ∧
      ∀ p ∈ rows, Dict.get 0 p.2 e < 0 →
        tb ≤ - Dict.get 0 b p.1 / Dict.get 0 p.2 e) ∨
    (∃ pre row post, rows = pre ++ (l, row) :: post ∧
      Dict.get 0 row e < 0 ∧
      tb = - Dict.get 0 b l / Dict.get 0 row e ∧
      (∀ q', acc = some q' → tb < q'.1) ∧
      (∀ p ∈ pre, Dict.get 0 p.2 e < 0 →
        tb < - Dict.get 0 b p.1 / Dict.get 0 p.2 e) ∧
      (∀ p ∈ post, Dict.get 0 p.2 e < 0 →
        tb ≤ - Dict.get 0 b p.1 / Dict.get 0 p.2 e)) := by
  intro rows
  induction rows with
  | nil =>
    intro acc tb l h
    exact Or.inl ⟨h, by simp⟩
  | cons p rest ih =>
    intro acc tb l h
    rcases acc with _ | q
    · rw [selectLeaving] at h
      by_cases hneg : Dict.get 0 p.2 e < 0
      · rw [if_pos hneg] at h
        rcases ih h with ⟨heq, hmin⟩ | ⟨pre, row, post, heq, h1, h2, h3, h4, h5⟩
        · rw [Option.some_inj, Prod.mk.injEq] at heq
          refine Or.inr ⟨[], p.2, rest, ?_, ?_, ?_, ?_, ?_, ?_⟩
          · rw [← heq.2]
            simp
          · exact hneg
          · rw [← heq.1, ← heq.2]
          · intro q' hq'
            simp at hq'
          · intro p' hp'
            simp at hp'
          · exact hmin
        · refine Or.inr ⟨p :: pre, row, post, by rw [heq]; rfl, h1, h2, ?_, ?_, h5⟩
          · intro q' hq'
            simp at hq'
          · intro p' hp'
            rcases List.mem_cons.mp hp' with rfl | hp2
            · intro _
              exact h3 _ rfl
            · exact h4 p' hp2
      · rw [if_neg hneg] at h
        rcases ih h with ⟨heq, hmin⟩ | ⟨pre, row, post, heq, h1, h2, h3, h4, h5⟩
        · exact absurd heq (by simp)
        · refine Or.inr ⟨p :: pre, row, post, by rw [heq]; rfl, h1, h2, ?_, ?_, h5⟩
          · intro q' hq'
            simp at hq'
          · intro p' hp'
            rcases List.mem_cons.mp hp' with rfl | hp2
            · intro hneg'
              exact absurd hneg' hneg
            · exact h4 p' hp2
    · rw [selectLeaving] at h
      by_cases hneg : Dict.get 0 p.2 e < 0
      · rw [if_pos hneg] at h
        by_cases hlt : - Dict.get 0 b p.1 / Dict.get 0 p.2 e < q.1
        · rw [if_pos hlt] at h
          rcases ih h with ⟨heq, hmin⟩ | ⟨pre, row, post, heq, h1, h2, h3, h4, h5⟩
          · rw [Option.some_inj, Prod.mk.injEq] at heq
            refine Or.inr ⟨[], p.2, rest, ?_, ?_, ?_, ?_, ?_, ?_⟩
            · rw [← heq.2]
              simp
            · exact hneg
            · rw [← heq.1, ← heq.2]
            · intro q' hq'
              rw [Option.some_inj] at hq'
              rw [← hq', ← heq.1]
              exact hlt
            · intro p' hp'
              simp at hp'
            · exact hmin
          · refine Or.inr ⟨p :: pre, row, post, by rw [heq]; rfl, h1, h2, ?_, ?_, h5⟩
            · intro q' hq'
              rw [Option.some_inj] at hq'
              rw [← hq']
              exact lt_trans (h3 _ rfl) hlt
            · intro p' hp'
              rcases List.mem_cons.mp hp' with rfl | hp2
              · intro _
                exact h3 _ rfl
              · exact h4 p' hp2
        · rw [if_neg hlt] at h
          rcases ih h with ⟨heq, hmin⟩ | ⟨pre, row, post, heq, h1, h2, h3, h4, h5⟩
          · rw [Option.some_inj, Prod.mk.injEq] at heq
            refine Or.inl ⟨by rw [← heq.1, ← heq.2], ?_⟩
            intro p' hp' hneg'
            rcases List.mem_cons.mp hp' with rfl | hp2
            · rw [heq.1.symm]
              exact not_lt.mp hlt
            · exact hmin p' hp2 hneg'
          · refine Or.inr ⟨p :: pre, row, post, by rw [heq]; rfl, h1, h2, ?_, ?_, h5⟩
            · intro q' hq'
              rw [Option.some_inj] at hq'
              rw [← hq']
              exact h3 _ rfl
            · intro p' hp'
              rcases List.mem_cons.mp hp' with rfl | hp2
              · intro _
                exact lt_of_lt_of_le (h3 _ rfl) (not_lt.mp hlt)
              · exact h4 p' hp2
      · rw [if_neg hneg] at h
        rcases ih h with ⟨heq, hmin⟩ | ⟨pre, row, post, heq, h1, h2, h3, h4, h5⟩
        · refine Or.inl ⟨heq, ?_⟩
          intro p' hp' hneg'
          rcases List.mem_cons.mp hp' with rfl | hp2
          · exact absurd hneg' hneg
          · exact hmin p' hp2 hneg'
        · refine Or.inr ⟨p :: pre, row, post, by rw [heq]; rfl, h1, h2, h3, ?_, h5⟩
          intro p' hp'
          rcases List.mem_cons.mp hp' with rfl | hp2
          · intro hneg'
            exact absurd hneg' hneg
          · exact h4 p' hp2


/-- What the ratio test guarantees about its result, read through the
dictionary accessors: the chosen leaving variable is a basic row with a
negative coefficient of `e`, the reported tightest bound is its bound, and no
qualifying row has a smaller bound. -/
theorem selectLeaving_found {S : SlackForm} {e : ℤ} {tb : ℚ} {l : ℤ}
    (hnd : (Dict.keys S.A).Nodup)
    (h : selectLeaving S.b e S.A none = some (tb, l)) :
    l ∈ Dict.keys S.A ∧ Dict.get 0 (Dict.get [] S.A l) e < 0 ∧
      tb = - Dict.get 0 S.b l / Dict.get 0 (Dict.get [] S.A l) e ∧
      ∀ p ∈ S.A, Dict.get 0 p.2 e < 0 →
        tb ≤ - Dict.get 0 S.b p.1 / Dict.get 0 p.2 e := by
  rcases selectLeaving_some h with ⟨heq, _⟩ | ⟨pre, row, post, heq, h1, h2, _, h4, h5⟩
  · exact absurd heq (by simp)
  · have hmem : (l, row) ∈ S.A := by
      rw [heq]
      exact List.mem_append_right _ (List.mem_cons_self _ _)
    have hrow : Dict.get [] S.A l = row := get_eq_of_mem [] hnd hmem
    refine ⟨Dict.mem_keys_of_mem hmem, by rw [hrow]; exact h1,
      by rw [hrow]; exact h2, ?_⟩
    intro p hp hpneg
    rw [heq] at hp
    rcases List.mem_append.mp hp with hp | hp
    · exact le_of_lt (h4 p hp hpneg)
    · rcases List.mem_cons.mp hp with rfl | hp
      · exact le_of_eq h2
      · exact h5 p hp hpneg

theorem selectMostNeg_mem {b : List (ℤ × ℚ)} :
    ∀ {rows : List (ℤ × Row)} {tb : ℚ} {acc : Option ℤ} {l : ℤ},
    selectMostNeg b rows tb acc = some l →
    acc = some l ∨ l ∈ Dict.keys rows := by
  intro rows
  induction rows with
  | nil =>
    intro tb acc l h
    exact Or.inl h
  | cons p rest ih =>
    intro tb acc l h
    rw [selectMostNeg] at h
    by_cases hb : Dict.get 0 b p.1 < tb
    · rw [if_pos hb] at h
      rcases ih h with h1 | h1
      · rw [Option.some_inj] at h1
        exact Or.inr (by rw [← h1]; exact Dict.mem_keys_of_mem (List.mem_cons_self _ _))
      · exact Or.inr (by rw [Dict.keys_cons]; exact List.mem_cons_of_mem _ h1)
    · rw [if_neg hb] at h
      rcases ih h with h1 | h1
      · exact Or.inl h1
      · exact Or.inr (by rw [Dict.keys_cons]; exact List.mem_cons_of_mem _ h1)

theorem scanNeg_some {row : Row} {j : ℤ} (h : scanNeg row = some j) :
    ∃ v, (j, v) ∈ row ∧ v < 0 := by
  induction row with
  | nil => simp [scanNeg] at h
  | cons p rest ih =>
    by_cases hp : p.2 < 0
    · rw [scanNeg, if_pos hp, Option.some_inj] at h
      exact ⟨p.2, by rw [← h]; exact List.mem_cons_self _ _, hp⟩
    · rw [scanNeg, if_neg hp] at h
      obtain ⟨v, hv, hvneg⟩ := ih h
      exact ⟨v, List.mem_cons_of_mem _ hv, hvneg⟩

theorem scanNeg_get_neg {row : Row} {j : ℤ} (hnd : (Dict.keys row).Nodup)
    (h : scanNeg row = some j) : Dict.get 0 row j < 0 := by
  obtain ⟨v, hv, hvneg⟩ := scanNeg_some h
  rw [get_eq_of_mem 0 hnd hv]
  exact hvneg

set_option maxHeartbeats 1000000 in
/-- The mathematical core of phase-2 feasibility preservation: a pivot on an
entering column and the row chosen by the ratio test keeps every basic
constant nonnegative. -/
theorem feasible_pivot {S : SlackForm} {e : ℤ} {tb : ℚ} {l : ℤ}
    (hInv : Inv S) (hFeas : Feasible S)
    (he : e ∈ Dict.keys S.c) (he1 : e ≠ -1)
    (hsel : selectLeaving S.b e S.A none = some (tb, l)) :
    Feasible (pivot S e l) := by
  obtain ⟨hlA, hneg, htb, hmin⟩ := selectLeaving_found hInv.nodupA hsel
  have hle : e ≠ l := (leaving_ne_entering hInv he hlA).symm
  have hlb : l ∈ Dict.keys S.b := basic_mem_b hInv hlA
  have hbl : 0 ≤ Dict.get 0 S.b l := hFeas l hlb
  have hbe : 0 ≤ pivBe S e l := by
    unfold pivBe pivAle rowOf
    exact div_nonneg_of_nonpos (neg_nonpos.mpr hbl) (le_of_lt hneg)
  have hbe_tb : pivBe S e l = tb := by
    unfold pivBe pivAle rowOf
    rw [htb]
  intro i hi
  unfold bVal
  rcases mem_keys_pivB2.mp hi with ⟨hi1, hil⟩
  by_cases hie : i = e
  · subst hie
    show 0 ≤ Dict.get 0 (pivB2 S i l) i
    rw [get_pivB2_e hle]
    exact hbe
  · have hib : i ∈ Dict.keys S.b := by
      rcases hi1 with rfl | h1
      · exact absurd rfl hie
      · exact h1
    show 0 ≤ Dict.get 0 (pivB2 S e l) i
    rw [get_pivB2_ne hib hie hil]
    by_cases ha : 0 ≤ Dict.get 0 (Dict.get [] S.A i) e
    · exact add_nonneg (hFeas i hib) (mul_nonneg ha hbe)
    · push_neg at ha
      have hiA : i ∈ Dict.keys S.A := hInv.keysBA i hib
      have hrow : (i, Dict.get [] S.A i) ∈ S.A := Dict.get_mem [] hiA
      have hb2 : pivBe S e l ≤ - Dict.get 0 S.b i / Dict.get 0 (Dict.get [] S.A i) e := by
        rw [hbe_tb]
        exact hmin _ hrow ha
      have h3 : Dict.get 0 (Dict.get [] S.A i) e *
            (- Dict.get 0 S.b i / Dict.get 0 (Dict.get [] S.A i) e) ≤
          Dict.get 0 (Dict.get [] S.A i) e * pivBe S e l :=
        mul_le_mul_of_nonpos_left hb2 (le_of_lt ha)
      have h4 : Dict.get 0 (Dict.get [] S.A i) e *
            (- Dict.get 0 S.b i / Dict.get 0 (Dict.get [] S.A i) e) =
          - Dict.get 0 S.b i := by
        rw [mul_comm]
        exact div_mul_cancel₀ _ (ne_of_lt ha)
      linarith

/-- One phase-2 loop iteration preserves the invariant and feasibility. -/
theorem step_preserves {S S' : SlackForm} (hInv : Inv S) (hFeas : Feasible S)
    (h : phase2Step S = some S') : Inv S' ∧ Feasible S' := by
  unfold phase2Step at h
  rcases hc : can_improve S.c with _ | e
  all_goals rw [hc] at h
  all_goals dsimp only at h
  · exact Option.noConfusion h
  · rcases hs : selectLeaving S.b e S.A none with _ | q
    all_goals rw [hs] at h
    all_goals dsimp only at h
    · exact Option.noConfusion h
    · have hS' : S' = pivot S e q.2 := (Option.some_inj.mp h).symm
      subst hS'
      obtain ⟨he, he1, _⟩ := can_improve_spec hInv.nodupC hc
      obtain ⟨hlA, _, _, _⟩ := selectLeaving_found hInv.nodupA hs
      exact ⟨Inv_pivot hInv he he1 hlA, feasible_pivot hInv hFeas he he1 hs⟩

theorem iter_preserves (n : ℕ) {S S' : SlackForm} (hInv : Inv S)
    (hFeas : Feasible S) (h : phase2Iter n S = some S') :
    Inv S' ∧ Feasible S' := by
  induction n generalizing S with
  | zero =>
    rw [phase2Iter, Option.some_inj] at h
    rw [← h]
    exact ⟨hInv, hFeas⟩
  | succ n ih =>
    rw [phase2Iter] at h
    rcases hstep : phase2Step S with _ | T
    all_goals rw [hstep] at h
    all_goals dsimp only at h
    · exact Option.noConfusion h
    · obtain ⟨hI, hF⟩ := step_preserves hInv hFeas hstep
      exact ih hI hF h

/-- A terminating `phase2` run is one that iterates the loop body some number
of times and then finds no positive reduced cost; the reported data come from
that final dictionary. -/
theorem phase2_optimal_spec {n : ℕ} {nv : ℤ} {S : SlackForm} {xs : List ℚ}
    {z : ℚ} (hInv : Inv S) (h : phase2 n nv S = .optimal xs z) :
    ∃ m S', phase2Iter m S = some S' ∧ Inv S' ∧
      can_improve S'.c = none ∧
      (∀ j ∈ Dict.keys S'.c, j ≠ -1 → Dict.get 0 S'.c j ≤ 0) ∧
      xs = extract S' nv ∧ z = vVal S' := by
  induction n generalizing S with
  | zero =>
    rw [phase2] at h
    exact RunResult.noConfusion h
  | succ n ih =>
    rw [phase2] at h
    rcases hc : can_improve S.c with _ | e
    all_goals rw [hc] at h
    all_goals dsimp only at h
    · refine ⟨0, S, rfl, hInv, hc, can_improve_none_get hc, ?_, ?_⟩
      · exact (RunResult.optimal.inj h).1.symm
      · exact (RunResult.optimal.inj h).2.symm
    · rcases hs : selectLeaving S.b e S.A none with _ | q
      all_goals rw [hs] at h
      all_goals dsimp only at h
      · exact RunResult.noConfusion h
      · obtain ⟨he, he1, _⟩ := can_improve_spec hInv.nodupC hc
        obtain ⟨hlA, _, _, _⟩ := selectLeaving_found hInv.nodupA hs
        obtain ⟨m, S', hIter, hI, h3, h4, h5, h6⟩ :=
          ih (Inv_pivot hInv he he1 hlA) h
        refine ⟨m + 1, S', ?_, hI, h3, h4, h5, h6⟩
        rw [phase2Iter]
        have hstep : phase2Step S = some (pivot S e q.2) := by
          unfold phase2Step
          rw [hc]
          dsimp only
          rw [hs]
        rw [hstep]
        exact hIter

/-- Enlarging the fuel of a run that already terminated does not change its
result. -/
theorem phase2_fuel_mono {n m : ℕ} {nv : ℤ} {S : SlackForm}
    (hnm : n ≤ m) (h : phase2 n nv S ≠ .outOfFuel) :
    phase2 m nv S = phase2 n nv S := by
  induction m generalizing n S with
  | zero =>
    have hn : n = 0 := Nat.le_zero.mp hnm
    rw [hn]
  | succ m ih =>
    rcases n with _ | n
    · exact absurd rfl h
    · rw [phase2]
      conv_rhs => rw [phase2]
      rcases hc : can_improve S.c with _ | e
      · rfl
      · dsimp only
        rcases hs : selectLeaving S.b e S.A none with _ | q
        · rfl
        · show phase2 m nv (pivot S e q.2) = phase2 n nv (pivot S e q.2)
          refine ih (Nat.succ_le_succ_iff.mp hnm) ?_
          rw [phase2] at h
          rw [hc] at h
          dsimp only at h
          rw [hs] at h
          dsimp only at h
          exact h


theorem pivot_bVal_e {S : SlackForm} {e l : ℤ} (hInv : Inv S)
    (he : e ∈ Dict.keys S.c) (hl : l ∈ Dict.keys S.A) :
    bVal (pivot S e l) e = - bVal S l / aCoef S l e := by
  have hle : e ≠ l := (leaving_ne_entering hInv he hl).symm
  show Dict.get 0 (pivB2 S e l) e = _
  rw [get_pivB2_e hle]
  rfl

theorem pivot_bVal_ne {S : SlackForm} {e l i : ℤ} (hInv : Inv S)
    (he : e ∈ Dict.keys S.c) (hi : i ∈ Dict.keys S.A) (hil : i ≠ l) :
    bVal (pivot S e l) i =
      bVal S i + aCoef S i e * (- bVal S l / aCoef S l e) := by
  have hie : i ≠ e := fun hh => nonbasic_not_basic hInv he (hh ▸ hi)
  have hib : i ∈ Dict.keys S.b := basic_mem_b hInv hi
  show Dict.get 0 (pivB2 S e l) i = _
  rw [get_pivB2_ne hib hie hil]
  rfl

theorem pivot_aCoef_e_l {S : SlackForm} {e l : ℤ} (hInv : Inv S)
    (he : e ∈ Dict.keys S.c) (hl : l ∈ Dict.keys S.A) :
    aCoef (pivot S e l) e l = 1 / aCoef S l e := by
  have hle : e ≠ l := (leaving_ne_entering hInv he hl).symm
  show Dict.get 0 (Dict.get [] (pivA2 S e l) e) l = _
  rw [get_pivA2_e hle, get_pivRowe_l]
  rfl

theorem pivot_aCoef_e_ne {S : SlackForm} {e l j : ℤ} (hInv : Inv S)
    (he : e ∈ Dict.keys S.c) (hl : l ∈ Dict.keys S.A)
    (hj : j ∈ Dict.keys S.c) (hj1 : j ≠ -1) (hje : j ≠ e) :
    aCoef (pivot S e l) e j = - aCoef S l j / aCoef S l e := by
  have hle : e ≠ l := (leaving_ne_entering hInv he hl).symm
  have hjl : j ≠ l := fun hh => basic_not_nonbasic hInv hl (hh ▸ hj)
  show Dict.get 0 (Dict.get [] (pivA2 S e l) e) j = _
  rw [get_pivA2_e hle, get_pivRowe_of_ne hInv hl hjl hje hj hj1]
  rfl

theorem pivot_aCoef_ne_l {S : SlackForm} {e l i : ℤ} (hInv : Inv S)
    (he : e ∈ Dict.keys S.c) (hl : l ∈ Dict.keys S.A)
    (hi : i ∈ Dict.keys S.A) (hil : i ≠ l) :
    aCoef (pivot S e l) i l = aCoef S i e * (1 / aCoef S l e) := by
  have hie : i ≠ e := fun hh => nonbasic_not_basic hInv he (hh ▸ hi)
  have hle : l ≠ e := leaving_ne_entering hInv he hl
  show Dict.get 0 (Dict.get [] (pivA2 S e l) i) l = _
  rw [get_pivA2_ne hi hie hil, get_pivotRowI_l hle, get_pivRowe_l]
  rfl

theorem pivot_aCoef_ne_ne {S : SlackForm} {e l i j : ℤ} (hInv : Inv S)
    (he : e ∈ Dict.keys S.c) (hl : l ∈ Dict.keys S.A)
    (hi : i ∈ Dict.keys S.A) (hil : i ≠ l)
    (hj : j ∈ Dict.keys S.c) (hj1 : j ≠ -1) (hje : j ≠ e) :
    aCoef (pivot S e l) i j =
      aCoef S i j + aCoef S i e * (- aCoef S l j / aCoef S l e) := by
  have hie : i ≠ e := fun hh => nonbasic_not_basic hInv he (hh ▸ hi)
  have hjl : j ≠ l := fun hh => basic_not_nonbasic hInv hl (hh ▸ hj)
  have hjrow : j ∈ Dict.keys (Dict.get [] S.A i) :=
    hInv.rowKeysSup _ (Dict.get_mem [] hi) j hj hj1
  show Dict.get 0 (Dict.get [] (pivA2 S e l) i) j = _
  rw [get_pivA2_ne hi hie hil, get_pivotRowI_mem hje hjl hjrow,
    get_pivRowe_of_ne hInv hl hjl hje hj hj1]
  rfl

theorem pivot_row_no_e {S : SlackForm} {e l i : ℤ} (hInv : Inv S)
    (he : e ∈ Dict.keys S.c) (hi : i ∈ Dict.keys S.A) (hil : i ≠ l) :
    e ∉ Dict.keys (Dict.get [] (pivot S e l).A i) := by
  have hie : i ≠ e := fun hh => nonbasic_not_basic hInv he (hh ▸ hi)
  show e ∉ Dict.keys (Dict.get [] (pivA2 S e l) i)
  rw [get_pivA2_ne hi hie hil]
  intro hmem
  exact (mem_keys_pivotRowI.mp hmem).2 rfl

theorem pivot_vVal {S : SlackForm} {e l : ℤ} (hInv : Inv S)
    (he1 : e ≠ -1) (hl : l ∈ Dict.keys S.A) :
    vVal (pivot S e l) = vVal S + cVal S e * (- bVal S l / aCoef S l e) := by
  have hl1 : l ≠ -1 := basic_ne_neg_one hInv hl
  show Dict.get 0 (pivC2 S e l) (-1) = _
  rw [get_pivC2_neg_one he1 hl1 hInv.hasV]
  rfl

theorem pivot_cVal_l {S : SlackForm} {e l : ℤ} (hInv : Inv S)
    (he : e ∈ Dict.keys S.c) (he1 : e ≠ -1) (hl : l ∈ Dict.keys S.A) :
    cVal (pivot S e l) l = cVal S e * (1 / aCoef S l e) := by
  have hle : l ≠ e := leaving_ne_entering hInv he hl
  show Dict.get 0 (pivC2 S e l) l = _
  rw [get_pivC2_l he1 hle, get_pivRowe_l]
  rfl

theorem pivot_cVal_ne {S : SlackForm} {e l j : ℤ} (hInv : Inv S)
    (he1 : e ≠ -1) (hl : l ∈ Dict.keys S.A)
    (hj : j ∈ Dict.keys S.c) (hj1 : j ≠ -1) (hje : j ≠ e) :
    cVal (pivot S e l) j =
      cVal S j + cVal S e * (- aCoef S l j / aCoef S l e) := by
  have hjl : j ≠ l := fun hh => basic_not_nonbasic hInv hl (hh ▸ hj)
  show Dict.get 0 (pivC2 S e l) j = _
  rw [get_pivC2_mem hj hje hjl hj1 he1 hInv.hasV,
    get_pivRowe_of_ne hInv hl hjl hje hj hj1]
  rfl

theorem pivot_mem_A {S : SlackForm} {e l k : ℤ} :
    k ∈ Dict.keys (pivot S e l).A ↔ (k = e ∨ k ∈ Dict.keys S.A) ∧ k ≠ l :=
  mem_keys_pivA2

theorem pivot_mem_b {S : SlackForm} {e l k : ℤ} :
    k ∈ Dict.keys (pivot S e l).b ↔ (k = e ∨ k ∈ Dict.keys S.b) ∧ k ≠ l :=
  mem_keys_pivB2

theorem pivot_mem_c {S : SlackForm} {e l k : ℤ}
    (hasV : (-1 : ℤ) ∈ Dict.keys S.c) :
    k ∈ Dict.keys (pivot S e l).c ↔ (k = l ∨ k ∈ Dict.keys S.c) ∧ k ≠ e :=
  mem_keys_pivC2 hasV


theorem mapM_congr {α β : Type} (f g : α → Except PErr β) :
    ∀ l : List α, (∀ x ∈ l, f x = g x) → l.mapM f = l.mapM g := by
  intro l
  induction l with
  | nil => intro _; rfl
  | cons a rest ih =>
    intro h
    rw [List.mapM_cons, List.mapM_cons, h a (List.mem_cons_self _ _),
      ih (fun x hx => h x (List.mem_cons_of_mem _ hx))]

theorem lineAt_ok {s : List (List Tok)} {i : ℕ} (h : i < s.length) :
    ∃ row, s.get? i = some row ∧ lineAt s i = .ok row := by
  rcases hg : s.get? i with _ | row
  · rw [List.get?_eq_none] at hg
    omega
  · refine ⟨row, rfl, ?_⟩
    unfold lineAt
    rw [hg]
    rfl

theorem tokAt_eq_view {s : List (List Tok)} {i : ℕ} {row : List Tok}
    (hrow : s.get? i = some row) (j : ℕ) :
    tokAt row j = optIdx (tokView s i j) := by
  unfold tokAt tokView
  rw [hrow]
  rfl

theorem tokAt_congr {s t : List (List Tok)} {i : ℕ} {rowS rowT : List Tok}
    (hS : s.get? i = some rowS) (hT : t.get? i = some rowT) {j : ℕ}
    (hv : tokView s i j = tokView t i j) :
    tokAt rowS j = tokAt rowT j := by
  rw [tokAt_eq_view hS j, tokAt_eq_view hT j, hv]

theorem parseRow_congr {s t : List (List Tok)} {i : ℕ}
    {rowS rowT : List Tok}
    (hS : s.get? i = some rowS) (hT : t.get? i = some rowT) {nvn : ℕ}
    (hv : ∀ j < nvn, tokView s i j = tokView t i j) :
    parseRow rowS nvn = parseRow rowT nvn := by
  unfold parseRow
  apply mapM_congr
  intro j hj
  rw [tokAt_congr hS hT (hv j (List.mem_range.mp hj))]

theorem parseHeader_congr {s t : List (List Tok)}
    (hs0 : 0 < s.length) (ht0 : 0 < t.length)
    (h0 : ∀ j < 2, tokView s 0 j = tokView t 0 j) :
    parseHeader s = parseHeader t := by
  obtain ⟨rowS, hgS, hS⟩ := lineAt_ok hs0
  obtain ⟨rowT, hgT, hT⟩ := lineAt_ok ht0
  unfold parseHeader
  rw [hS, hT]
  show (do
      let nv ← tokInt (← tokAt rowS 0)
      let nc ← tokInt (← tokAt rowS 1)
      pure (nv, nc) : Except PErr (ℤ × ℤ)) = (do
      let nv ← tokInt (← tokAt rowT 0)
      let nc ← tokInt (← tokAt rowT 1)
      pure (nv, nc))
  rw [tokAt_congr hgS hgT (h0 0 (by norm_num)),
    tokAt_congr hgS hgT (h0 1 (by norm_num))]

theorem parseMatA_congr {s t : List (List Tok)} {nv nc : ℤ}
    (hls : nc.toNat + 3 ≤ s.length) (hlt : nc.toNat + 3 ≤ t.length)
    (hA : ∀ i < nc.toNat, ∀ j < nv.toNat, tokView s (i + 1) j = tokView t (i + 1) j) :
    parseMatA s nv nc = parseMatA t nv nc := by
  unfold parseMatA
  apply mapM_congr
  intro i hi
  have hi2 : i < nc.toNat := List.mem_range.mp hi
  obtain ⟨rowS, hgS, hS⟩ := lineAt_ok (show i + 1 < s.length by omega)
  obtain ⟨rowT, hgT, hT⟩ := lineAt_ok (show i + 1 < t.length by omega)
  rw [hS, hT]
  show (do
      let r ← parseRow rowS nv.toNat
      pure ((i : ℤ) + nv, r) : Except PErr (ℤ × Row)) = (do
      let r ← parseRow rowT nv.toNat
      pure ((i : ℤ) + nv, r))
  rw [parseRow_congr hgS hgT (fun j hj => hA i hi2 j hj)]

theorem parseVecB_congr {s t : List (List Tok)} {nv nc : ℤ}
    (hls : nc.toNat + 3 ≤ s.length) (hlt : nc.toNat + 3 ≤ t.length)
    (hb : ∀ i < nc.toNat, tokView s (nc.toNat + 1) i = tokView t (nc.toNat + 1) i) :
    parseVecB s nv nc = parseVecB t nv nc := by
  unfold parseVecB
  obtain ⟨rowS, hgS, hS⟩ := lineAt_ok (show nc.toNat + 1 < s.length by omega)
  obtain ⟨rowT, hgT, hT⟩ := lineAt_ok (show nc.toNat + 1 < t.length by omega)
  rw [hS, hT]
  show ((List.range nc.toNat).mapM (fun i => do
      let q ← tokFloat (← tokAt rowS i)
      pure ((i : ℤ) + nv, q)) : Except PErr (List (ℤ × ℚ))) =
    (List.range nc.toNat).mapM (fun i => do
      let q ← tokFloat (← tokAt rowT i)
      pure ((i : ℤ) + nv, q))
  apply mapM_congr
  intro i hi
  rw [tokAt_congr hgS hgT (hb i (List.mem_range.mp hi))]

theorem parseVecC_congr {s t : List (List Tok)} {nv nc : ℤ}
    (hls : nc.toNat + 3 ≤ s.length) (hlt : nc.toNat + 3 ≤ t.length)
    (hcv : ∀ j < nv.toNat, tokView s (nc.toNat + 2) j = tokView t (nc.toNat + 2) j) :
    parseVecC s nv nc = parseVecC t nv nc := by
  unfold parseVecC
  obtain ⟨rowS, hgS, hS⟩ := lineAt_ok (show nc.toNat + 2 < s.length by omega)
  obtain ⟨rowT, hgT, hT⟩ := lineAt_ok (show nc.toNat + 2 < t.length by omega)
  rw [hS, hT]
  show ((List.range nv.toNat).mapM (fun i => do
      let q ← tokFloat (← tokAt rowS i)
      pure ((i : ℤ), q)) : Except PErr (List (ℤ × ℚ))) =
    (List.range nv.toNat).mapM (fun i => do
      let q ← tokFloat (← tokAt rowT i)
      pure ((i : ℤ), q))
  apply mapM_congr
  intro i hi
  rw [tokAt_congr hgS hgT (hcv i (List.mem_range.mp hi))]


theorem runSimplex_fuel_mono {s : List (List Tok)} {n m : ℕ}
    (hnm : n ≤ m) (h : runSimplex s n ≠ .outOfFuel) :
    runSimplex s m = runSimplex s n := by
  unfold runSimplex at h ⊢
  rcases hp : parse_input s with err | ok
  · cases err <;> rfl
  · rw [hp] at h
    obtain ⟨S, nv⟩ := ok
    dsimp only at h ⊢
    rcases hb : anyNegB S.b with _ | _
    all_goals rw [hb] at h
    all_goals try dsimp only at h ⊢
    · exact phase2_fuel_mono hnm h
    · rcases hff : first_feasible_solution S with _ | _ | S1
      all_goals rw [hff] at h
      all_goals try dsimp only at h ⊢
      · rfl
      · rfl
      · exact phase2_fuel_mono hnm h

theorem phase2_succ_pivot {n : ℕ} {nv : ℤ} {S : SlackForm} {e : ℤ} {q : ℚ × ℤ}
    (hce : can_improve S.c = some e)
    (hsel : selectLeaving S.b e S.A none = some q) :
    phase2 (n + 1) nv S = phase2 n nv (pivot S e q.2) := by
  rw [phase2, hce]
  try dsimp only
  rw [hsel]

theorem phase2_succ_opt {n : ℕ} {nv : ℤ} {S : SlackForm}
    (hce : can_improve S.c = none) :
    phase2 (n + 1) nv S = .optimal (extract S nv) (Dict.get 0 S.c (-1)) := by
  rw [phase2, hce]

theorem runSimplex_parsed_neg {s : List (List Tok)} {S : SlackForm} {nv : ℤ}
    {fuel : ℕ} {S1 : SlackForm}
    (hp : parse_input s = .ok (S, nv)) (hneg : anyNegB S.b = true)
    (hffs : first_feasible_solution S = .ok S1) :
    runSimplex s fuel = phase2 fuel nv S1 := by
  rw [runSimplex, hp]
  try dsimp only
  rw [hneg, hffs]
  rfl

/-- Claim C2 (code bug): on the feasible program `exC2` the code runs both
phase-1 pivots and removes the artificial variable, yet the resulting
dictionary has the basic constant `b(3) = -1 < 0` — contradicting the
specified postcondition that the restored dictionary is feasible. -/
theorem phase1_can_return_infeasible_dictionary :
    ∃ S₀ S', parse_input exC2 = .ok (S₀, 2) ∧ anyNegB S₀.b = true ∧
      first_feasible_solution S₀ = .ok S' ∧
      (3 : ℤ) ∈ Dict.keys S'.b ∧ bVal S' 3 = -1 ∧ ¬ Feasible S' := by
  refine ⟨⟨[(2, [(0, 1), (1, 0)]), (3, [(0, 0), (1, 1)])],
      [(2, -1), (3, -1)], [(0, 0), (1, 0), (-1, 0)]⟩,
    ⟨[(3, [(1, 1), (2, 0)]), (0, [(1, 0), (2, 1)])],
      [(3, -1), (0, 1)], [(1, 0), (-1, 0), (2, 0)]⟩,
    ?_, ?_, ?_, by decide, ?_, ?_⟩
  · norm_num [parse_input, parseHeader, parseMatA, parseVecB, parseVecC,
      parseRow, lineAt, tokAt, optIdx, tokInt, tokFloat, exC2, bind,
      Except.bind, pure, Except.pure, List.mapM, List.mapM.loop,
      List.range_succ, show ((2 : ℤ).toNat = 2) from rfl, Dict.set,
      Dict.repl, Dict.hasKey, Dict.keys]
  · norm_num [anyNegB, Dict.get]
  · norm_num [first_feasible_solution, selectMostNeg, scanNeg, pivot, pivA2,
      pivA1, pivB2, pivB1, pivC2, pivC1, pivRowe, pivotRowI, pivBe, pivAle,
      rowOf, scaleRow, Dict.set, Dict.del, Dict.modify, Dict.repl,
      Dict.hasKey, Dict.keys, Dict.get]
  · norm_num [bVal, Dict.get]
  · intro hF
    have h3 := hF 3 (by decide)
    rw [show bVal ⟨[(3, [(1, 1), (2, 0)]), (0, [(1, 0), (2, 1)])],
      [(3, -1), (0, 1)], [(1, 0), (-1, 0), (2, 0)]⟩ 3 = -1 from by
        norm_num [bVal, Dict.get]] at h3
    exact absurd h3 (by norm_num)

/-- Claim C3 (code bug): a constraint row with fewer tokens than `numVar`
aborts with an uncaught `IndexError` — `except ValueError` does not catch it
— rather than the specified `MalformedInputError` path; a non-numeric token
does take the caught-`ValueError` path. -/
theorem short_row_uncaught_index_error :
    parse_input exC3short = .error .indexError ∧
    runSimplex exC3short 5 = .uncaughtError ∧
    parse_input exC3bad = .error .valueError ∧
    runSimplex exC3bad 5 = .inputError :=
  ⟨rfl, rfl, rfl, rfl⟩

/-- Claim C4: once the phase-2 loop starts from a feasible dictionary, every
pivot it performs (entering variable with positive reduced cost, leaving
variable by the ratio test) leaves the dictionary feasible. -/
theorem phase2_preserves_feasibility {n : ℕ} {S S' : SlackForm}
    (hInv : Inv S) (hFeas : Feasible S) (h : phase2Iter n S = some S') :
    Feasible S' :=
  (iter_preserves n hInv hFeas h).2

theorem phase2_preserves_feasibility_witness :
    Inv Sw ∧ Feasible Sw ∧ phase2Iter 1 Sw = some (pivot Sw 0 3) ∧
      Feasible (pivot Sw 0 3) := by
  have hInv : Inv Sw := by constructor <;> decide
  have hFeas : Feasible Sw := by
    norm_num [Feasible, bVal, Sw, Dict.keys, Dict.get]
  have hIter : phase2Iter 1 Sw = some (pivot Sw 0 3) := by
    norm_num [phase2Iter, phase2Step, can_improve, selectLeaving, Sw,
      Dict.get]
  exact ⟨hInv, hFeas, hIter,
    @phase2_preserves_feasibility 1 Sw (pivot Sw 0 3) hInv hFeas hIter⟩

/-- Claim C5: in a phase-2 iteration with entering variable `e`, the leaving
variable is the first-encountered minimizer of `-b(i)/a(i,e)` among basic
rows with `a(i,e) < 0`; when no such row exists the loop reports the LP
unbounded and stops. -/
theorem ratio_test_and_unbounded {S : SlackForm} {e : ℤ} {n : ℕ} {nv : ℤ}
    (hnd : (Dict.keys S.A).Nodup) (hce : can_improve S.c = some e) :
    (∀ tb l, selectLeaving S.b e S.A none = some (tb, l) →
      aCoef S l e < 0 ∧
      tb = - bVal S l / aCoef S l e ∧
      (∃ pre row post, S.A = pre ++ (l, row) :: post ∧
        Dict.get 0 row e < 0 ∧
        (∀ p ∈ pre, Dict.get 0 p.2 e < 0 →
          tb < - bVal S p.1 / Dict.get 0 p.2 e) ∧
        (∀ p ∈ post, Dict.get 0 p.2 e < 0 →
          tb ≤ - bVal S p.1 / Dict.get 0 p.2 e)) ∧
      (∀ p ∈ S.A, Dict.get 0 p.2 e < 0 →
        tb ≤ - bVal S p.1 / Dict.get 0 p.2 e)) ∧
    (selectLeaving S.b e S.A none = none → phase2 (n + 1) nv S = .unbounded) := by
  constructor
  · intro tb l hsel
    obtain ⟨hlA, hneg, htb, hmin⟩ := selectLeaving_found hnd hsel
    rcases selectLeaving_some hsel with ⟨heq, _⟩ |
      ⟨pre, row, post, heq, h1, h2, _, h4, h5⟩
    · exact absurd heq (by simp)
    · exact ⟨hneg, htb, ⟨pre, row, post, heq, h1, h4, h5⟩, hmin⟩
  · intro hsel
    rw [phase2, hce]
    dsimp only
    rw [hsel]

theorem ratio_test_and_unbounded_witness :
    (Dict.keys Sw.A).Nodup ∧ can_improve Sw.c = some 0 ∧
    selectLeaving Sw.b 0 Sw.A none = some (2, 3) ∧ aCoef Sw 3 0 < 0 := by
  have hnd : (Dict.keys Sw.A).Nodup := by decide
  have hce : can_improve Sw.c = some 0 := by
    norm_num [can_improve, Sw]
  have hsel : selectLeaving Sw.b 0 Sw.A none = some (2, 3) := by
    norm_num [selectLeaving, Sw, Dict.get]
  have h := @ratio_test_and_unbounded Sw 0 0 2 hnd hce
  exact ⟨hnd, hce, hsel, (h.1 2 3 hsel).1⟩

/-- Claim C6: when phase 2 terminates normally, the final dictionary
certifies optimality (`c(j) ≤ 0` for all nonbasic `j`), and the reported
assignment gives each original index its basic constant (or `0` when
nonbasic) with the reported objective equal to the final `v`. -/
theorem optimal_certificate {n : ℕ} {nv : ℤ} {S : SlackForm} {xs : List ℚ}
    {z : ℚ} (hInv : Inv S) (h : phase2 n nv S = .optimal xs z) :
    ∃ m S', phase2Iter m S = some S' ∧
      (∀ j ∈ Dict.keys S'.c, j ≠ -1 → cVal S' j ≤ 0) ∧
      z = vVal S' ∧ xs.length = nv.toNat ∧
      ∀ i : ℕ, i < nv.toNat →
        xs.get? i = some (if (i : ℤ) ∈ Dict.keys S'.b then bVal S' (i : ℤ) else 0) := by
  obtain ⟨m, S', hIter, _, _, hcle, hxs, hz⟩ := phase2_optimal_spec hInv h
  refine ⟨m, S', hIter, hcle, hz, ?_, ?_⟩
  · rw [hxs]
    unfold extract
    rw [List.length_map, List.length_range]
  · intro i hi
    rw [hxs]
    unfold extract
    rw [List.get?_map, List.get?_range hi]
    show some (if Dict.hasKey S'.b (i : ℤ) then Dict.get 0 S'.b (i : ℤ) else 0) = _
    by_cases hm : (i : ℤ) ∈ Dict.keys S'.b
    · rw [if_pos (Dict.hasKey_iff.mpr hm), if_pos hm]
      rfl
    · rw [if_neg (fun hh => hm (Dict.hasKey_iff.mp hh)), if_neg hm]

theorem optimal_certificate_witness :
    ∃ m S', phase2Iter m Sopt = some S' ∧
      (∀ j ∈ Dict.keys S'.c, j ≠ -1 → cVal S' j ≤ 0) ∧
      vVal Sopt = vVal S' ∧ (extract Sopt 2).length = (2 : ℤ).toNat ∧
      ∀ i : ℕ, i < (2 : ℤ).toNat →
        (extract Sopt 2).get? i =
          some (if (i : ℤ) ∈ Dict.keys S'.b then bVal S' (i : ℤ) else 0) :=
  @optimal_certificate 1 2 Sopt (extract Sopt 2) (vVal Sopt)
    (by constructor <;> decide)
    (by norm_num [phase2, can_improve, Sopt, vVal, Dict.get])

/-- Claim C7: every pivot the algorithm performs has a nonzero pivot
element: the phase-2 ratio test only selects rows with `A[l][e] < 0`; the
phase-1 entering pivot is on the artificial column, which is set to `1` in
every row; and the phase-1 leaving pivot is on a coefficient scanned to be
negative. -/
theorem pivot_element_nonzero (S : SlackForm) :
    (∀ e tb l, (Dict.keys S.A).Nodup →
      selectLeaving S.b e S.A none = some (tb, l) → aCoef S l e ≠ 0) ∧
    (∀ a0 l : ℤ, l ∈ Dict.keys S.A →
      pivAle (⟨S.A.map (fun p => (p.1, Dict.set p.2 a0 1)), S.b,
        Dict.set S.c a0 1⟩ : SlackForm) a0 l = 1) ∧
    (∀ a0 j : ℤ, (Dict.keys (rowOf S a0)).Nodup →
      scanNeg (rowOf S a0) = some j → pivAle S j a0 ≠ 0) := by
  refine ⟨?_, ?_, ?_⟩
  · intro e tb l hnd hsel
    exact ne_of_lt (selectLeaving_found hnd hsel).2.1
  · intro a0 l hl
    unfold pivAle rowOf
    show Dict.get 0 (Dict.get [] (S.A.map (fun p => (p.1, Dict.set p.2 a0 1))) l) a0 = 1
    rw [get_map_snd [] (fun r => Dict.set r a0 1) hl]
    exact Dict.get_set_self 0 _ _ _
  · intro a0 j hnd hscan
    exact ne_of_lt (scanNeg_get_neg hnd hscan)

theorem pivot_element_nonzero_witness :
    aCoef Sw 3 0 ≠ 0 ∧
    pivAle (⟨Sw.A.map (fun p => (p.1, Dict.set p.2 4 1)), Sw.b,
      Dict.set Sw.c 4 1⟩ : SlackForm) 4 2 = 1 ∧
    pivAle Sw 0 3 ≠ 0 := by
  obtain ⟨h1, h2, h3⟩ := pivot_element_nonzero Sw
  exact ⟨h1 0 2 3 (by decide) (by norm_num [selectLeaving, Sw, Dict.get]),
    h2 4 2 (by decide),
    h3 3 0 (by decide) (by norm_num [scanNeg, rowOf, Sw, Dict.get])⟩

/-- Claim C9: on the Scenario B input (`numVar=2, numCon=3`,
`A=[[1,-1],[-1,-1],[-1,4]]`, `b=[8,-3,2]`, `c=[1,3]`), which goes through
phase 1, the solver terminates with the optimal assignment
`x0 = 34/3, x1 = 10/3` and objective `64/3` (under exact arithmetic). -/
theorem scenario_b_optimal :
    runSimplex exB 10 = .optimal [34 / 3, 10 / 3] (64 / 3) ∧
    ∀ f : ℕ, 10 ≤ f → runSimplex exB f = .optimal [34 / 3, 10 / 3] (64 / 3) := by
  have hparse : parse_input exB = .ok
      (⟨[(2, [(0, -1), (1, 1)]), (3, [(0, 1), (1, 1)]), (4, [(0, 1), (1, -4)])],
        [(2, 8), (3, -3), (4, 2)],
        [(0, 1), (1, 3), (-1, 0)]⟩, 2) := by
    norm_num [parse_input, parseHeader, parseMatA, parseVecB, parseVecC,
      parseRow, lineAt, tokAt, optIdx, tokInt, tokFloat, exB, bind,
      Except.bind, pure, Except.pure, List.mapM, List.mapM.loop,
      List.range_succ, show ((3 : ℤ).toNat = 3) from rfl,
      show ((2 : ℤ).toNat = 2) from rfl, Dict.set, Dict.repl, Dict.hasKey,
      Dict.keys]
  have hneg : anyNegB ([(2, 8), (3, -3), (4, 2)] : List (ℤ × ℚ)) = true := by
    norm_num [anyNegB, Dict.get]
  have hffs : first_feasible_solution
      ⟨[(2, [(0, -1), (1, 1)]), (3, [(0, 1), (1, 1)]), (4, [(0, 1), (1, -4)])],
        [(2, 8), (3, -3), (4, 2)],
        [(0, 1), (1, 3), (-1, 0)]⟩ = .ok
      ⟨[(2, [(1, 2), (3, -1)]), (4, [(1, -5), (3, 1)]), (0, [(1, -1), (3, 1)])],
        [(2, 5), (4, 5), (0, 3)],
        [(1, 2), (-1, 3), (3, 1)]⟩ := by
    norm_num [first_feasible_solution, selectMostNeg, scanNeg, pivot, pivA2,
      pivA1, pivB2, pivB1, pivC2, pivC1, pivRowe, pivotRowI, pivBe, pivAle,
      rowOf, scaleRow, Dict.set, Dict.del, Dict.modify, Dict.repl,
      Dict.hasKey, Dict.keys, Dict.get]
  have h1 : phase2 10 2
      (⟨[(2, [(1, 2), (3, -1)]), (4, [(1, -5), (3, 1)]), (0, [(1, -1), (3, 1)])],
        [(2, 5), (4, 5), (0, 3)],
        [(1, 2), (-1, 3), (3, 1)]⟩ : SlackForm) = phase2 9 2
      ⟨[(2, [(3, (-3 : ℚ)/5), (4, (-2 : ℚ)/5)]),
        (0, [(3, (4 : ℚ)/5), (4, (1 : ℚ)/5)]),
        (1, [(3, (1 : ℚ)/5), (4, (-1 : ℚ)/5)])],
        [(2, 7), (0, 2), (1, 1)],
        [(-1, 5), (3, (7 : ℚ)/5), (4, (-2 : ℚ)/5)]⟩ := by
    rw [@phase2_succ_pivot 9 2 _ 1 (1, 4)
      (by norm_num [can_improve])
      (by norm_num [selectLeaving, Dict.get])]
    congr 1
    norm_num [pivot, pivA2, pivA1, pivB2, pivB1, pivC2, pivC1, pivRowe,
      pivotRowI, pivBe, pivAle, rowOf, scaleRow, Dict.set, Dict.del,
      Dict.modify, Dict.repl, Dict.hasKey, Dict.keys, Dict.get]
  have h2 : phase2 9 2
      (⟨[(2, [(3, (-3 : ℚ)/5), (4, (-2 : ℚ)/5)]),
        (0, [(3, (4 : ℚ)/5), (4, (1 : ℚ)/5)]),
        (1, [(3, (1 : ℚ)/5), (4, (-1 : ℚ)/5)])],
        [(2, 7), (0, 2), (1, 1)],
        [(-1, 5), (3, (7 : ℚ)/5), (4, (-2 : ℚ)/5)]⟩ : SlackForm) = phase2 8 2
      ⟨[(0, [(4, (-1 : ℚ)/3), (2, (-4 : ℚ)/3)]),
        (1, [(4, (-1 : ℚ)/3), (2, (-1 : ℚ)/3)]),
        (3, [(4, (-2 : ℚ)/3), (2, (-5 : ℚ)/3)])],
        [(0, (34 : ℚ)/3), (1, (10 : ℚ)/3), (3, (35 : ℚ)/3)],
        [(-1, (64 : ℚ)/3), (4, (-4 : ℚ)/3), (2, (-7 : ℚ)/3)]⟩ := by
    rw [@phase2_succ_pivot 8 2 _ 3 (35/3, 2)
      (by norm_num [can_improve])
      (by norm_num [selectLeaving, Dict.get])]
    congr 1
    norm_num [pivot, pivA2, pivA1, pivB2, pivB1, pivC2, pivC1, pivRowe,
      pivotRowI, pivBe, pivAle, rowOf, scaleRow, Dict.set, Dict.del,
      Dict.modify, Dict.repl, Dict.hasKey, Dict.keys, Dict.get]
  have h3 : phase2 8 2
      (⟨[(0, [(4, (-1 : ℚ)/3), (2, (-4 : ℚ)/3)]),
        (1, [(4, (-1 : ℚ)/3), (2, (-1 : ℚ)/3)]),
        (3, [(4, (-2 : ℚ)/3), (2, (-5 : ℚ)/3)])],
        [(0, (34 : ℚ)/3), (1, (10 : ℚ)/3), (3, (35 : ℚ)/3)],
        [(-1, (64 : ℚ)/3), (4, (-4 : ℚ)/3), (2, (-7 : ℚ)/3)]⟩ : SlackForm) =
      .optimal [34 / 3, 10 / 3] (64 / 3) := by
    rw [@phase2_succ_opt 7 2 _ (by norm_num [can_improve])]
    norm_num [extract, List.range_succ, show ((2 : ℤ).toNat = 2) from rfl,
      Dict.hasKey, Dict.keys, Dict.get]
  have h10 : runSimplex exB 10 = .optimal [34 / 3, 10 / 3] (64 / 3) := by
    rw [runSimplex_parsed_neg hparse hneg hffs, h1, h2, h3]
  refine ⟨h10, fun f hf => ?_⟩
  rw [runSimplex_fuel_mono hf (by rw [h10]; intro hc; cases hc)]
  exact h10

theorem scenario_b_optimal_witness :
    runSimplex exB 11 = .optimal [34 / 3, 10 / 3] (64 / 3) :=
  scenario_b_optimal.2 11 (by norm_num)

/-- Claim C1: for a dictionary satisfying the structural invariant, a
nonbasic entering index `e` and a basic leaving index `l` with
`a(l,e) ≠ 0`, `pivot(e,l)` rewrites the dictionary exactly as specified:
the new row for `e` has `b(e) = -b(l)/a(l,e)`, `a(e,i) = -a(l,i)/a(l,e)`
for every other column of row `l` and `a(e,l) = 1/a(l,e)`; every remaining
row gains `a(i,e)·b(e)` on its constant, `a(i,e)·a(e,j)` on every column
`j ≠ e`, the new column `a(i,l) = a(i,e)·a(e,l)` and loses column `e`; the
objective gains `c(e)·b(e)` on `v`, `c(e)·a(e,j)` on every nonbasic
`j ≠ e`, the new entry `c(l) = c(e)·a(e,l)` and loses `c(e)`; and `e`
moves from the nonbasic set to the basic set while `l` moves from basic to
nonbasic, all other indices keeping their status. -/
theorem pivot_rewrites_exactly {S : SlackForm} {e l : ℤ} (hInv : Inv S)
    (he : e ∈ Dict.keys S.c) (he1 : e ≠ -1) (hl : l ∈ Dict.keys S.A)
    (ha : aCoef S l e ≠ 0) :
    bVal (pivot S e l) e = - bVal S l / aCoef S l e ∧
    (∀ i ∈ Dict.keys (rowOf S l), i ≠ e →
      aCoef (pivot S e l) e i = - aCoef S l i / aCoef S l e) ∧
    aCoef (pivot S e l) e l = 1 / aCoef S l e ∧
    (∀ i ∈ Dict.keys S.A, i ≠ l →
      bVal (pivot S e l) i = bVal S i + aCoef S i e * bVal (pivot S e l) e ∧
      (∀ j ∈ Dict.keys (rowOf S i), j ≠ e →
        aCoef (pivot S e l) i j =
          aCoef S i j + aCoef S i e * aCoef (pivot S e l) e j) ∧
      aCoef (pivot S e l) i l = aCoef S i e * aCoef (pivot S e l) e l ∧
      e ∉ Dict.keys (Dict.get [] (pivot S e l).A i)) ∧
    vVal (pivot S e l) = vVal S + cVal S e * bVal (pivot S e l) e ∧
    (∀ j ∈ Dict.keys S.c, j ≠ -1 → j ≠ e →
      cVal (pivot S e l) j = cVal S j + cVal S e * aCoef (pivot S e l) e j) ∧
    cVal (pivot S e l) l = cVal S e * aCoef (pivot S e l) e l ∧
    e ∉ Dict.keys (pivot S e l).c ∧
    e ∈ Dict.keys (pivot S e l).A ∧ e ∈ Dict.keys (pivot S e l).b ∧
    l ∉ Dict.keys (pivot S e l).A ∧ l ∉ Dict.keys (pivot S e l).b ∧
    l ∈ Dict.keys (pivot S e l).c ∧
    (∀ k : ℤ, k ≠ e → k ≠ l →
      (k ∈ Dict.keys (pivot S e l).A ↔ k ∈ Dict.keys S.A) ∧
      (k ∈ Dict.keys (pivot S e l).b ↔ k ∈ Dict.keys S.b) ∧
      (k ∈ Dict.keys (pivot S e l).c ↔ k ∈ Dict.keys S.c)) := by
  have hle : l ≠ e := leaving_ne_entering hInv he hl
  have hel : e ≠ l := hle.symm
  refine ⟨pivot_bVal_e hInv he hl, ?_, pivot_aCoef_e_l hInv he hl, ?_,
    ?_, ?_, ?_,
    fun h => ((pivot_mem_c hInv.hasV).mp h).2 rfl,
    pivot_mem_A.mpr ⟨Or.inl rfl, hel⟩, pivot_mem_b.mpr ⟨Or.inl rfl, hel⟩,
    fun h => (pivot_mem_A.mp h).2 rfl, fun h => (pivot_mem_b.mp h).2 rfl,
    (pivot_mem_c hInv.hasV).mpr ⟨Or.inl rfl, hle⟩, ?_⟩
  · intro i hi hie
    have hic := (mem_keys_rowl hInv hl).mp hi
    exact pivot_aCoef_e_ne hInv he hl hic.1 hic.2 hie
  · intro i hi hil
    have hie : i ≠ e := fun hh => nonbasic_not_basic hInv he (hh ▸ hi)
    refine ⟨?_, ?_, ?_, pivot_row_no_e hInv he hi hil⟩
    · rw [pivot_bVal_e hInv he hl]
      exact pivot_bVal_ne hInv he hi hil
    · intro j hj hje
      have hjc := (mem_keys_rowl hInv hi).mp hj
      rw [pivot_aCoef_e_ne hInv he hl hjc.1 hjc.2 hje]
      exact pivot_aCoef_ne_ne hInv he hl hi hil hjc.1 hjc.2 hje
    · rw [pivot_aCoef_e_l hInv he hl]
      exact pivot_aCoef_ne_l hInv he hl hi hil
  · rw [pivot_bVal_e hInv he hl]
    exact pivot_vVal hInv he1 hl
  · intro j hj hj1 hje
    rw [pivot_aCoef_e_ne hInv he hl hj hj1 hje]
    exact pivot_cVal_ne hInv he1 hl hj hj1 hje
  · rw [pivot_aCoef_e_l hInv he hl]
    exact pivot_cVal_l hInv he he1 hl
  · intro k hke hkl
    refine ⟨?_, ?_, ?_⟩
    · rw [pivot_mem_A]
      constructor
      · intro h
        exact h.1.resolve_left hke
      · intro h
        exact ⟨Or.inr h, hkl⟩
    · rw [pivot_mem_b]
      constructor
      · intro h
        exact h.1.resolve_left hke
      · intro h
        exact ⟨Or.inr h, hkl⟩
    · rw [pivot_mem_c hInv.hasV]
      constructor
      · intro h
        exact h.1.resolve_left hkl
      · intro h
        exact ⟨Or.inr h, hke⟩

theorem pivot_rewrites_exactly_witness :
    aCoef Sw 2 0 ≠ 0 ∧
    bVal (pivot Sw 0 2) 0 = - bVal Sw 2 / aCoef Sw 2 0 ∧
    aCoef (pivot Sw 0 2) 0 2 = 1 / aCoef Sw 2 0 ∧
    vVal (pivot Sw 0 2) = vVal Sw + cVal Sw 0 * bVal (pivot Sw 0 2) 0 ∧
    (0 : ℤ) ∈ Dict.keys (pivot Sw 0 2).A ∧
    (2 : ℤ) ∉ Dict.keys (pivot Sw 0 2).A := by
  have ha : aCoef Sw 2 0 ≠ 0 := by
    simp [aCoef, Sw, Dict.get]
  obtain ⟨h1, -, h3, -, h5, -, -, -, h9, -, h11, -⟩ :=
    @pivot_rewrites_exactly Sw 0 2 (by constructor <;> decide) (by decide)
      (by decide) (by decide) ha
  exact ⟨ha, h1, h3, h5, h9, h11⟩

set_option maxHeartbeats 1000000 in
/-- Claim C8: pivoting on `(e,l)` and then on `(l,e)` restores the original
dictionary under exact rational arithmetic: the basic, nonbasic and
right-hand-side index sets are unchanged, and every coefficient, constant
and objective entry (including the constant `v` stored at key `-1`) has its
original value. -/
theorem pivot_involution {S : SlackForm} {e l : ℤ} (hInv : Inv S)
    (he : e ∈ Dict.keys S.c) (he1 : e ≠ -1) (hl : l ∈ Dict.keys S.A)
    (ha : aCoef S l e ≠ 0) :
    (∀ k, k ∈ Dict.keys (pivot (pivot S e l) l e).A ↔ k ∈ Dict.keys S.A) ∧
    (∀ k, k ∈ Dict.keys (pivot (pivot S e l) l e).b ↔ k ∈ Dict.keys S.b) ∧
    (∀ k, k ∈ Dict.keys (pivot (pivot S e l) l e).c ↔ k ∈ Dict.keys S.c) ∧
    (∀ i ∈ Dict.keys S.A, bVal (pivot (pivot S e l) l e) i = bVal S i) ∧
    (∀ i ∈ Dict.keys S.A, ∀ j ∈ Dict.keys (rowOf S i),
      aCoef (pivot (pivot S e l) l e) i j = aCoef S i j) ∧
    (∀ j ∈ Dict.keys S.c, cVal (pivot (pivot S e l) l e) j = cVal S j) := by
  have hle : l ≠ e := leaving_ne_entering hInv he hl
  have hel : e ≠ l := hle.symm
  have hl1 : l ≠ -1 := basic_ne_neg_one hInv hl
  have heA : e ∉ Dict.keys S.A := nonbasic_not_basic hInv he
  have heb : e ∉ Dict.keys S.b := nonbasic_not_in_b hInv he
  have hlb : l ∈ Dict.keys S.b := basic_mem_b hInv hl
  have hlc : l ∉ Dict.keys S.c := basic_not_nonbasic hInv hl
  have hInv' : Inv (pivot S e l) := Inv_pivot hInv he he1 hl
  have hlc' : l ∈ Dict.keys (pivot S e l).c :=
    (pivot_mem_c hInv.hasV).mpr ⟨Or.inl rfl, hle⟩
  have heA' : e ∈ Dict.keys (pivot S e l).A :=
    pivot_mem_A.mpr ⟨Or.inl rfl, hel⟩
  have hAel : aCoef (pivot S e l) e l = 1 / aCoef S l e :=
    pivot_aCoef_e_l hInv he hl
  have hbe' : bVal (pivot S e l) e = - bVal S l / aCoef S l e :=
    pivot_bVal_e hInv he hl
  have hcl' : cVal (pivot S e l) l = cVal S e * (1 / aCoef S l e) :=
    pivot_cVal_l hInv he he1 hl
  refine ⟨?_, ?_, ?_, ?_, ?_, ?_⟩
  · intro k
    rw [pivot_mem_A, pivot_mem_A]
    constructor
    · rintro ⟨rfl | ⟨hke | hk, hkl⟩, hke2⟩
      · exact hl
      · exact absurd hke hke2
      · exact hk
    · intro hk
      have hke : k ≠ e := fun hh => heA (hh ▸ hk)
      by_cases hkl : k = l
      · exact ⟨Or.inl hkl, hke⟩
      · exact ⟨Or.inr ⟨Or.inr hk, hkl⟩, hke⟩
  · intro k
    rw [pivot_mem_b, pivot_mem_b]
    constructor
    · rintro ⟨rfl | ⟨hke | hk, hkl⟩, hke2⟩
      · exact hlb
      · exact absurd hke hke2
      · exact hk
    · intro hk
      have hke : k ≠ e := fun hh => heb (hh ▸ hk)
      by_cases hkl : k = l
      · exact ⟨Or.inl hkl, hke⟩
      · exact ⟨Or.inr ⟨Or.inr hk, hkl⟩, hke⟩
  · intro k
    rw [pivot_mem_c hInv'.hasV, pivot_mem_c hInv.hasV]
    constructor
    · rintro ⟨rfl | ⟨hkl | hk, hke⟩, hkl2⟩
      · exact he
      · exact absurd hkl hkl2
      · exact hk
    · intro hk
      have hkl : k ≠ l := fun hh => hlc (hh ▸ hk)
      by_cases hke : k = e
      · exact ⟨Or.inl hke, hkl⟩
      · exact ⟨Or.inr ⟨Or.inr hk, hke⟩, hkl⟩
  · intro i hi
    by_cases hil : i = l
    · rw [hil, pivot_bVal_e hInv' hlc' heA', hbe', hAel]
      field_simp
    · have hie : i ≠ e := fun hh => heA (hh ▸ hi)
      have hi' : i ∈ Dict.keys (pivot S e l).A :=
        pivot_mem_A.mpr ⟨Or.inr hi, hil⟩
      rw [pivot_bVal_ne hInv' hlc' hi' hie,
        pivot_bVal_ne hInv he hi hil,
        pivot_aCoef_ne_l hInv he hl hi hil, hbe', hAel]
      field_simp
      try ring
  · intro i hi j hj
    have hjc := (mem_keys_rowl hInv hi).mp hj
    have hjl : j ≠ l := fun hh => hlc (hh ▸ hjc.1)
    by_cases hil : i = l
    · by_cases hje : j = e
      · rw [hil, hje, pivot_aCoef_e_l hInv' hlc' heA', hAel,
          one_div_one_div]
      · have hj' : j ∈ Dict.keys (pivot S e l).c :=
          (pivot_mem_c hInv.hasV).mpr ⟨Or.inr hjc.1, hje⟩
        rw [hil, pivot_aCoef_e_ne hInv' hlc' heA' hj' hjc.2 hjl,
          pivot_aCoef_e_ne hInv he hl hjc.1 hjc.2 hje, hAel]
        field_simp
    · have hie : i ≠ e := fun hh => heA (hh ▸ hi)
      have hi' : i ∈ Dict.keys (pivot S e l).A :=
        pivot_mem_A.mpr ⟨Or.inr hi, hil⟩
      by_cases hje : j = e
      · rw [hje, pivot_aCoef_ne_l hInv' hlc' heA' hi' hie,
          pivot_aCoef_ne_l hInv he hl hi hil, hAel, one_div_one_div]
        field_simp
      · have hj' : j ∈ Dict.keys (pivot S e l).c :=
          (pivot_mem_c hInv.hasV).mpr ⟨Or.inr hjc.1, hje⟩
        rw [pivot_aCoef_ne_ne hInv' hlc' heA' hi' hie hj' hjc.2 hjl,
          pivot_aCoef_ne_ne hInv he hl hi hil hjc.1 hjc.2 hje,
          pivot_aCoef_ne_l hInv he hl hi hil,
          pivot_aCoef_e_ne hInv he hl hjc.1 hjc.2 hje, hAel]
        field_simp
        try ring
  · intro j hj
    by_cases hj1 : j = -1
    · rw [hj1]
      show vVal (pivot (pivot S e l) l e) = vVal S
      rw [pivot_vVal hInv' hl1 heA', pivot_vVal hInv he1 hl, hcl', hbe',
        hAel]
      field_simp
      try ring
    · have hjl : j ≠ l := fun hh => hlc (hh ▸ hj)
      by_cases hje : j = e
      · rw [hje, pivot_cVal_l hInv' hlc' hl1 heA', hcl', hAel,
          one_div_one_div]
        field_simp
      · have hj' : j ∈ Dict.keys (pivot S e l).c :=
          (pivot_mem_c hInv.hasV).mpr ⟨Or.inr hj, hje⟩
        rw [pivot_cVal_ne hInv' hl1 heA' hj' hj1 hjl,
          pivot_cVal_ne hInv he1 hl hj hj1 hje, hcl',
          pivot_aCoef_e_ne hInv he hl hj hj1 hje, hAel]
        field_simp
        try ring

theorem pivot_involution_witness :
    aCoef Sw 2 0 ≠ 0 ∧
    (∀ i ∈ Dict.keys Sw.A, bVal (pivot (pivot Sw 0 2) 2 0) i = bVal Sw i) ∧
    (∀ j ∈ Dict.keys Sw.c, cVal (pivot (pivot Sw 0 2) 2 0) j = cVal Sw j) := by
  have ha : aCoef Sw 2 0 ≠ 0 := by
    simp [aCoef, Sw, Dict.get]
  obtain ⟨-, -, -, hb, -, hc⟩ :=
    @pivot_involution Sw 0 2 (by constructor <;> decide) (by decide)
      (by decide) (by decide) ha
  exact ⟨ha, hb, hc⟩

/-- Claim C10: parsing reads only the first `numVar` tokens of each of the
first `numCon` constraint lines, the first `numCon` tokens of the `b` line
and the first `numVar` tokens of the `c` line (plus the two header tokens):
two inputs with enough lines that agree on those prefixes produce identical
parse results, so surplus tokens and trailing lines are ignored. -/
theorem parse_reads_only_prefixes {s t : List (List Tok)} {nv nc : ℤ}
    (hhd : parseHeader s = .ok (nv, nc))
    (hls : nc.toNat + 3 ≤ s.length) (hlt : nc.toNat + 3 ≤ t.length)
    (h0 : ∀ j < 2, tokView s 0 j = tokView t 0 j)
    (hA : ∀ i < nc.toNat, ∀ j < nv.toNat,
      tokView s (i + 1) j = tokView t (i + 1) j)
    (hb : ∀ i < nc.toNat, tokView s (nc.toNat + 1) i = tokView t (nc.toNat + 1) i)
    (hcv : ∀ j < nv.toNat, tokView s (nc.toNat + 2) j = tokView t (nc.toNat + 2) j) :
    parse_input s = parse_input t := by
  have hhdt : parseHeader t = .ok (nv, nc) := by
    rw [← parseHeader_congr (by omega) (by omega) h0]
    exact hhd
  unfold parse_input
  rw [hhd, hhdt]
  show (do
      let A ← parseMatA s nv nc
      let b ← parseVecB s nv nc
      let c ← parseVecC s nv nc
      pure (⟨A, b, Dict.set c (-1) 0⟩, nv) : Except PErr (SlackForm × ℤ)) =
    (do
      let A ← parseMatA t nv nc
      let b ← parseVecB t nv nc
      let c ← parseVecC t nv nc
      pure (⟨A, b, Dict.set c (-1) 0⟩, nv) : Except PErr (SlackForm × ℤ))
  rw [parseMatA_congr hls hlt hA, parseVecB_congr hls hlt hb,
    parseVecC_congr hls hlt hcv]

theorem parse_reads_only_prefixes_witness :
    parse_input exC10a = parse_input exC10b :=
  @parse_reads_only_prefixes exC10a exC10b 2 1 rfl (by decide) (by decide)
    (by decide) (by decide) (by decide) (by decide)

end SimplexLP
